import Mathlib

/-!
Shallow embedding of the stepwise A* pathfinding engine of `src/main.py`
(class `AStarPathfinder`, its `Cell` grid and the `heapq`-based open set),
together with theorems settling the specification claims about it.

Conventions of the embedding:
* a `Cell` object is identified by its immutable grid coordinates `(x, y)`;
  the mutable per-cell fields `g`, `h`, `f`, `parent` become finite maps
  (functions `CellId → _`) carried in the engine state;
* Python's `heapq` module (`heappush`, `heappop`, `_siftdown`, `_siftup`)
  is embedded verbatim on `List` with explicit index arithmetic; the
  entries are `(f-snapshot, cell)` pairs and the comparison is Python's
  tuple comparison, whose tie component calls `Cell.__lt__`, i.e. compares
  the cells' *current* `f` fields — so the comparison takes the current
  `f`-map as a parameter;
* the module-level grid dimensions `COLS`/`ROWS` of the source are
  parameters of the embedding, so that claims quantified over grids are
  statable;
* Python's `set` for `closed_set` is embedded as a duplicate-free list
  with idempotent insertion (only membership and insertion are used);
* the `while` loop of `get_path` is embedded with an explicit fuel of
  `COLS * ROWS + 1`, which is proved sufficient on every reachable state.
-/

namespace AStarPF

/-- A cell is identified by its grid coordinates `(x, y)`. -/
abbrev CellId := Nat × Nat

/-- A frontier entry, as pushed by the source: `(neighbor.f, neighbor)` —
the first component is the `f` value snapshotted at push time. -/
abbrev Entry := Nat × CellId

/-- Python's comparison on open-set entries: tuple comparison of
`(f_snapshot, cell)` pairs.  Integers are compared first; on a tie the
cells are compared with `Cell.__lt__`, which reads the cells' *current*
`f` attribute (`self.f < other.f`), supplied here as the map `fcur`. -/
def entryLt (fcur : CellId → Nat) (a b : Entry) : Bool :=
  decide (a.1 < b.1) || (decide (a.1 = b.1) && decide (fcur a.2 < fcur b.2))

/-! ### Python `heapq` (CPython `Lib/heapq.py`), embedded on lists -/

/-- The body of `heapq._siftdown(heap, startpos, pos)`: the bubble-up
loop.  `newitem` is the value conceptually sitting at `pos`; ancestors
greater than it are shifted down until the right slot is found.  The loop
index `pos` strictly decreases, so structural fuel initialized to `pos`
makes the recursion total without changing the computed value (the `0`
base case coincides with the `¬ startpos < pos` exit when the fuel
invariant `pos ≤ fuel` holds, which every call site establishes). -/
def siftdownGo {α : Type} (lt : α → α → Bool) (d : α)
    (newitem : α) (startpos : Nat) : Nat → List α → Nat → List α
  | 0, heap, pos => heap.set pos newitem
  | fuel + 1, heap, pos =>
    if startpos < pos then
      let parentpos := (pos - 1) / 2
      let parent := heap.getD parentpos d
      if lt newitem parent then
        siftdownGo lt d newitem startpos fuel (heap.set pos parent) parentpos
      else
        heap.set pos newitem
    else
      heap.set pos newitem

/-- `heapq._siftdown(heap, startpos, pos)`. -/
def siftdownLoop {α : Type} (lt : α → α → Bool) (d : α)
    (heap : List α) (startpos : Nat) (newitem : α) (pos : Nat) : List α :=
  siftdownGo lt d newitem startpos pos heap pos

/-- The body of `heapq._siftup(heap, pos)`: moves the smaller child up
along a path to a leaf, places `newitem` at the leaf, then calls
`_siftdown` to bubble it back up.  The loop index `pos` strictly
increases below `heap.length`, so structural fuel initialized to
`heap.length` suffices (the fuel invariant is `heap.length - pos ≤ fuel`;
at fuel `0` that forces `¬ 2 * pos + 1 < heap.length`, the loop exit). -/
def siftupGo {α : Type} (lt : α → α → Bool) (d : α)
    (newitem : α) (startpos : Nat) : Nat → List α → Nat → List α
  | 0, heap, pos => siftdownLoop lt d (heap.set pos newitem) startpos newitem pos
  | fuel + 1, heap, pos =>
    if 2 * pos + 1 < heap.length then
      let childpos :=
        if 2 * pos + 2 < heap.length
            && !(lt (heap.getD (2 * pos + 1) d) (heap.getD (2 * pos + 2) d)) then
          2 * pos + 2
        else
          2 * pos + 1
      siftupGo lt d newitem startpos fuel (heap.set pos (heap.getD childpos d)) childpos
    else
      siftdownLoop lt d (heap.set pos newitem) startpos newitem pos

/-- `heapq._siftup(heap, pos)`. -/
def siftupLoop {α : Type} (lt : α → α → Bool) (d : α)
    (heap : List α) (newitem : α) (startpos pos : Nat) : List α :=
  siftupGo lt d newitem startpos heap.length heap pos

/-- `heapq.heappush(heap, item)`. -/
def heappush {α : Type} (lt : α → α → Bool) (d : α) (heap : List α) (item : α) :
    List α :=
  siftdownLoop lt d (heap ++ [item]) 0 item heap.length

/-- `heapq.heappop(heap)`: returns the popped item and the remaining heap,
or `none` on an empty heap (where Python raises `IndexError`; the engine
only pops after checking `len(self.open_set) > 0`). -/
def heappop {α : Type} (lt : α → α → Bool) (d : α) (heap : List α) :
    Option (α × List α) :=
  match heap with
  | [] => none
  | a :: t =>
    let lastelt := (a :: t).getLast (List.cons_ne_nil a t)
    let rest := (a :: t).dropLast
    match rest with
    | [] => some (lastelt, [])
    | _ :: _ =>
      some (rest.getD 0 lastelt, siftupLoop lt d (rest.set 0 lastelt) lastelt 0 0)

/-! ### The grid (`Cell.add_neighbors`, obstacles) -/

/-- `Cell.add_neighbors`: the 4-neighborhood in the source's fixed order
`+x, -x, +y, -y`, bounds-checked exactly as in the source
(`x < COLS - 1`, `x > 0`, `y < ROWS - 1`, `y > 0`). -/
def neighborsOf (COLS ROWS : Nat) (c : CellId) : List CellId :=
  (if c.1 < COLS - 1 then [(c.1 + 1, c.2)] else []) ++
  (if 0 < c.1 then [(c.1 - 1, c.2)] else []) ++
  (if c.2 < ROWS - 1 then [(c.1, c.2 + 1)] else []) ++
  (if 0 < c.2 then [(c.1, c.2 - 1)] else [])

/-- `AStarPathfinder.heuristic`: Manhattan distance
`abs(a.x - b.x) + abs(a.y - b.y)`. -/
def heuristic (a b : CellId) : Nat :=
  ((a.1 : Int) - (b.1 : Int)).natAbs + ((a.2 : Int) - (b.2 : Int)).natAbs

/-- `AStarPathfinder.cost`: unit edge cost. -/
def cost (_a _b : CellId) : Nat := 1

/-- A coordinate lies on the `COLS × ROWS` grid. -/
def inBounds (COLS ROWS : Nat) (c : CellId) : Prop :=
  c.1 < COLS ∧ c.2 < ROWS

instance (COLS ROWS : Nat) (c : CellId) : Decidable (inBounds COLS ROWS c) :=
  inferInstanceAs (Decidable (c.1 < COLS ∧ c.2 < ROWS))

/-! ### Engine state (`AStarPathfinder.__init__` fields) -/

/-- The mutable state of an `AStarPathfinder` plus the mutable per-cell
search fields of the grid's `Cell` objects (`f`, `g`, `h`, `parent`),
which in the source live on the cells but are owned by the search. -/
structure PFState where
  g : CellId → Nat
  h : CellId → Nat
  f : CellId → Nat
  parent : CellId → Option CellId
  openSet : List Entry
  closedSet : List CellId
  current : Option CellId
  found : Bool

/-- Python `set.add`: idempotent insertion (order of the underlying list
is immaterial; only membership is ever queried). -/
def setAdd (c : CellId) (l : List CellId) : List CellId :=
  if c ∈ l then l else c :: l

/-- `AStarPathfinder.__init__`: all `Cell` search fields start at
`0`/`None` (as set in `Cell.__init__`), the closed set is empty, there is
no current cell, `found` is `False`, and the start cell is pushed with its
(initial, zero) `f` value. -/
def initState (startc : CellId) : PFState :=
  { g := fun _ => 0
    h := fun _ => 0
    f := fun _ => 0
    parent := fun _ => none
    openSet := heappush (entryLt fun _ => 0) (0, (0, 0)) [] (0, startc)
    closedSet := []
    current := none
    found := false }

/-- Pointwise update of a per-cell field. -/
def upd {β : Type} (m : CellId → β) (k : CellId) (v : β) : CellId → β :=
  fun x => if x = k then v else m x

/-- The body of the neighbor loop of `AStarPathfinder.step` for a single
neighbor: skip closed or obstacle neighbors; otherwise compute
`tentative_g`, scan the open set for a pending entry, relax if `not
in_open or tentative_g < neighbor.g`, and push a fresh entry only when
`not in_open`. -/
def relaxNeighbor (obstacle : CellId → Bool) (endc : CellId)
    (s : PFState) (cur nb : CellId) : PFState :=
  if nb ∉ s.closedSet && !obstacle nb then
    let tentative_g := s.g cur + cost cur nb
    let in_open := s.openSet.any fun e => decide (e.2 = nb)
    if !in_open || decide (tentative_g < s.g nb) then
      let g' := upd s.g nb tentative_g
      let h' := upd s.h nb (heuristic nb endc)
      let f' := upd s.f nb (tentative_g + heuristic nb endc)
      let s' := { s with parent := upd s.parent nb (some cur), g := g', h := h', f := f' }
      if !in_open then
        { s' with openSet := heappush (entryLt s'.f) (0, (0, 0)) s'.openSet (s'.f nb, nb) }
      else s'
    else s
  else s

/-- The neighbor loop of `AStarPathfinder.step` over
`self.current.neighbors`. -/
def processNeighbors (obstacle : CellId → Bool) (endc : CellId)
    (s : PFState) (cur : CellId) : List CellId → PFState
  | [] => s
  | nb :: rest =>
      processNeighbors obstacle endc (relaxNeighbor obstacle endc s cur nb) cur rest

/-- `AStarPathfinder.step`: one call of the stepwise search.  Faithful
branch structure: if the open set is non-empty and the goal has not been
found, pop the minimum entry (comparisons use the current `f` map), set
`current`, finish if it is the goal, otherwise add it to the closed set
and run the neighbor loop; if instead the open set is empty and the goal
has not been found, set `found` (the "No solution found" branch); in all
other cases do nothing. -/
def step (COLS ROWS : Nat) (obstacle : CellId → Bool) (endc : CellId)
    (s : PFState) : PFState :=
  if s.openSet.length > 0 && !s.found then
    match heappop (entryLt s.f) (0, (0, 0)) s.openSet with
    | none => s
    | some (e, rest) =>
      let cur := e.2
      let s1 := { s with openSet := rest, current := some cur }
      if cur = endc then
        { s1 with found := true }
      else
        let s2 := { s1 with closedSet := setAdd cur s1.closedSet }
        processNeighbors obstacle endc s2 cur (neighborsOf COLS ROWS cur)
  else if s.openSet.length = 0 && !s.found then
    { s with found := true }
  else s

/-- `n` repeated calls of `step()` starting from a freshly constructed
engine. -/
def runSteps (COLS ROWS : Nat) (obstacle : CellId → Bool)
    (startc endc : CellId) : Nat → PFState
  | 0 => initState startc
  | n + 1 => step COLS ROWS obstacle endc (runSteps COLS ROWS obstacle startc endc n)

/-- The predecessor walk of `AStarPathfinder.get_path`
(`while temp: path.append(temp); temp = temp.parent`), with explicit fuel
for the unbounded Python loop; `COLS * ROWS + 1` fuel is proved sufficient
on reachable states (`g` strictly decreases along predecessor links). -/
def getPathAux (parent : CellId → Option CellId) : Nat → CellId → List CellId
  | 0, c => [c]
  | fuel + 1, c =>
    c :: (match parent c with
          | none => []
          | some p => getPathAux parent fuel p)

/-- `AStarPathfinder.get_path`: the empty sequence when there is no
current cell, otherwise the predecessor walk *from* `self.current` —
note: the source appends while walking and performs no reversal, so the
result is ordered current-to-start. -/
def getPath (COLS ROWS : Nat) (s : PFState) : List CellId :=
  match s.current with
  | none => []
  | some c => getPathAux s.parent (COLS * ROWS + 1) c

/-! ### Construction-time behavior (`__init__` and `setup`) -/

/-- The construction error taxonomy named by the specification.  The
source never raises either of these. -/
inductive ConstructionError where
  | invalidEndpoint
  | invalidGrid
  deriving DecidableEq

/-- `AStarPathfinder.__init__`, wrapped in `Except` to make the
specification's claim about construction-time errors statable: the
source's constructor body contains no validation and no `raise`
whatsoever, so the embedding is structurally always `.ok`. -/
def initE (_COLS _ROWS : Nat) (_obstacle : CellId → Bool)
    (startc _endc : CellId) : Except ConstructionError PFState :=
  .ok (initState startc)

/-- The obstacle mask produced by `setup`: obstacle file entries are
applied only when in bounds (`if 0 <= x < COLS and 0 <= y < ROWS`), and
afterwards the chosen start and end cells are forced free
(`start.obstacle = False; end.obstacle = False`). -/
def setupObstacle (COLS ROWS : Nat) (entries : List CellId)
    (startc endc : CellId) : CellId → Bool :=
  fun c =>
    if c = startc ∨ c = endc then false
    else decide (c ∈ entries ∧ c.1 < COLS ∧ c.2 < ROWS)

/-! ### The spec's three-valued observable engine state -/

/-- The specification's state machine values. -/
inductive EngineState where
  | RUNNING
  | FOUND
  | EXHAUSTED
  deriving DecidableEq

/-- The engine state as recovered from the observable attributes of an
`AStarPathfinder` (`found`, `current`, `end`): not yet terminal means
`RUNNING`; terminal with the goal as current cell means `FOUND`; terminal
otherwise means `EXHAUSTED`. -/
def observedState (endc : CellId) (s : PFState) : EngineState :=
  if s.found = false then .RUNNING
  else if s.current = some endc then .FOUND
  else .EXHAUSTED

/-! ### The spec's brute-force BFS oracle for shortest path length -/

/-- One BFS layer expansion: all unvisited, non-obstacle neighbors of the
frontier, deduplicated. -/
def bfsExpand (COLS ROWS : Nat) (obstacle : CellId → Bool)
    (visited frontier : List CellId) : List CellId :=
  ((frontier.flatMap (neighborsOf COLS ROWS)).filter
      fun nb => !obstacle nb && decide (nb ∉ visited)).dedup

/-- Layered BFS main loop: returns the depth at which the goal first
appears in the frontier. -/
def bfsGo (COLS ROWS : Nat) (obstacle : CellId → Bool) (endc : CellId) :
    Nat → List CellId → List CellId → Nat → Option Nat
  | 0, _, _, _ => none
  | fuel + 1, visited, frontier, depth =>
    if frontier = [] then none
    else if endc ∈ frontier then some depth
    else
      let nf := bfsExpand COLS ROWS obstacle visited frontier
      bfsGo COLS ROWS obstacle endc fuel (visited ++ nf) nf (depth + 1)

/-- The true shortest 4-directional path length between `startc` and
`endc`, as computed by brute-force breadth-first search on the same grid
(the oracle named by the specification's Optimality property). -/
def bfsDist (COLS ROWS : Nat) (obstacle : CellId → Bool)
    (startc endc : CellId) : Option Nat :=
  if obstacle startc then none
  else bfsGo COLS ROWS obstacle endc (COLS * ROWS + 1) [startc] [startc] 0

/-! ### Valid paths (for the amended optimality statement) -/

/-- Consecutive cells of the list are 4-directionally adjacent
(Manhattan distance exactly 1). -/
def chainAdj : List CellId → Bool
  | [] => true
  | [_] => true
  | a :: b :: r => decide (heuristic a b = 1) && chainAdj (b :: r)

/-- `p` is a genuine 4-directional path on the grid: consecutive cells at
Manhattan distance 1, every cell in bounds and free of obstacles. -/
def IsValidPath (COLS ROWS : Nat) (obstacle : CellId → Bool)
    (p : List CellId) : Prop :=
  chainAdj p = true ∧ ∀ c ∈ p, inBounds COLS ROWS c ∧ obstacle c = false

instance (COLS ROWS : Nat) (obstacle : CellId → Bool) (p : List CellId) :
    Decidable (IsValidPath COLS ROWS obstacle p) :=
  inferInstanceAs
    (Decidable (chainAdj p = true ∧ ∀ c ∈ p, inBounds COLS ROWS c ∧ obstacle c = false))

/-- The set of edge counts of valid paths from `a` to `b`; its infimum is
the true shortest path length. -/
def pathLengths (COLS ROWS : Nat) (obstacle : CellId → Bool)
    (a b : CellId) : Set Nat :=
  { n | ∃ p : List CellId, IsValidPath COLS ROWS obstacle p ∧
        p.head? = some a ∧ p.getLast? = some b ∧ p.length = n + 1 }

/-- The cells currently pending in the frontier (the second components of
the open-set entries). -/
def openCells (s : PFState) : List CellId :=
  s.openSet.map Prod.snd

/-- The finite set of in-bounds coordinates of the grid. -/
def boundsGrid (COLS ROWS : Nat) : Finset CellId :=
  Finset.range COLS ×ˢ Finset.range ROWS

/-- Termination measure: the number of in-bounds cells never yet pushed,
plus the number of pending frontier entries.  Every expanding `step`
decreases it by exactly one. -/
def searchMeasure (COLS ROWS : Nat) (s : PFState) : Nat :=
  ((boundsGrid COLS ROWS).filter fun c => c ∉ openCells s ∧ c ∉ s.closedSet).card +
    s.openSet.length

/-- The engine invariant, maintained by `step` on every reachable state
(for an in-bounds, obstacle-free start cell). -/
structure Inv (COLS ROWS : Nat) (obstacle : CellId → Bool)
    (startc endc : CellId) (s : PFState) : Prop where
  openNodup : (openCells s).Nodup
  closedNodup : s.closedSet.Nodup
  openClosedDisj : ∀ c ∈ openCells s, c ∉ s.closedSet
  openBounds : ∀ c ∈ openCells s, inBounds COLS ROWS c
  closedBounds : ∀ c ∈ s.closedSet, inBounds COLS ROWS c
  openFree : ∀ c ∈ openCells s, obstacle c = false
  closedFree : ∀ c ∈ s.closedSet, obstacle c = false
  currentNotEnd : s.found = false → s.current ≠ some endc
  currentTouched : ∀ c, s.current = some c → c = startc ∨ s.parent c ≠ none
  openTouched : ∀ c ∈ openCells s, c = startc ∨ s.parent c ≠ none
  closedTouched : ∀ c ∈ s.closedSet, c = startc ∨ s.parent c ≠ none
  parentAdj : ∀ c p, s.parent c = some p → heuristic p c = 1
  parentBounds : ∀ c p, s.parent c = some p →
    inBounds COLS ROWS c ∧ inBounds COLS ROWS p
  parentFree : ∀ c p, s.parent c = some p →
    obstacle c = false ∧ obstacle p = false
  parentG : ∀ c p, s.parent c = some p → s.g p < s.g c
  parentChain : ∀ c p, s.parent c = some p → p = startc ∨ s.parent p ≠ none
  startParent : s.parent startc = none
  untouched : s.found = false → ∀ c, c ∉ openCells s → c ∉ s.closedSet →
    s.parent c = none ∧ s.g c = 0
  gBound : ∀ c, s.g c ≤ s.closedSet.length
  startState : startc ∈ s.closedSet ∨
    (openCells s = [startc] ∧ s.closedSet = []) ∨ s.found = true

/-- The invariant holding between iterations of the neighbor loop of an
expanding `step` whose expanded cell is `cur`. -/
structure LoopInv (COLS ROWS : Nat) (obstacle : CellId → Bool)
    (startc endc : CellId) (cur : CellId) (s : PFState) : Prop where
  inv : Inv COLS ROWS obstacle startc endc s
  notFound : s.found = false
  curClosed : cur ∈ s.closedSet
  curG : s.g cur < s.closedSet.length
  curFree : obstacle cur = false
  curBounds : inBounds COLS ROWS cur
  curNotEnd : cur ≠ endc
  curCurrent : s.current = some cur
  startClosed : startc ∈ s.closedSet

/-! ### Concrete instances used for counterexamples and witnesses -/

/-- Obstacle mask of the optimality counterexample instance: a `7 × 4`
grid with obstacles at `(1,0)`, `(1,1)` and `(4,1)`. -/
def cexObstacle : CellId → Bool :=
  fun c => decide (c = (1, 0) ∨ c = (1, 1) ∨ c = (4, 1))

/-- The optimality counterexample run: `7 × 4` grid, `cexObstacle`,
start `(6,1)`, goal `(0,0)`. -/
def cexRun (n : Nat) : PFState :=
  runSteps 7 4 cexObstacle (6, 1) (0, 0) n

/-- A 9-edge valid path from `(6,1)` to `(0,0)` on the counterexample
grid, exhibited explicitly. -/
def cexShortPath : List CellId :=
  [(6,1), (5,1), (5,2), (4,2), (3,2), (2,2), (1,2), (0,2), (0,1), (0,0)]

/-- The empty obstacle mask. -/
def emptyObstacle : CellId → Bool := fun _ => false

/-- A `4 × 4` obstacle-free run from `(0,0)` to `(3,3)`: at its 14th step
the engine relaxes the in-frontier cell `(0,3)` without pushing a new
entry. -/
def sqRun (n : Nat) : PFState :=
  runSteps 4 4 emptyObstacle (0, 0) (3, 3) n

/-- Obstacle mask walling off the goal on a `2 × 2` grid. -/
def wallObstacle : CellId → Bool :=
  fun c => decide (c = (1, 0) ∨ c = (0, 1))

/-- A `2 × 2` run whose goal `(1,1)` is unreachable: it exhausts. -/
def wallRun (n : Nat) : PFState :=
  runSteps 2 2 wallObstacle (0, 0) (1, 1) n

/-- A `1 × 1` run with start equal to goal: found on the first step. -/
def unitRun (n : Nat) : PFState :=
  runSteps 1 1 emptyObstacle (0, 0) (0, 0) n

/-- The constant tie-field map used in the frontier tie-order
counterexample: every cell's current `f` is `5`. -/
def tieF : CellId → Nat := fun _ => 5

/-- The binary-heap ordering invariant on the estimate (first) component
of the frontier entries: every non-root position is at least its parent.
It is stated on the estimate component only, because the tie-breaking
component of the entry comparison reads the cells' mutable current `f`
fields and so can change between operations; the estimate component of
an entry is immutable, and the invariant on it is maintained by every
`heappush`/`heappop` regardless of tie-field mutation. -/
def WeakHeapF (l : List Entry) : Prop :=
  ∀ i : Nat, 0 < i → i < l.length →
    (l.getD ((i - 1) / 2) (0, (0, 0))).1 ≤ (l.getD i (0, (0, 0))).1

/-- Four equal-estimate entries pushed in order `a, b, c, d` into an
empty frontier. -/
def tieHeap : List Entry :=
  heappush (entryLt tieF) (0, (0, 0))
    (heappush (entryLt tieF) (0, (0, 0))
      (heappush (entryLt tieF) (0, (0, 0))
        (heappush (entryLt tieF) (0, (0, 0)) [] (5, (0, 0)))
        (5, (1, 0)))
      (5, (2, 0)))
    (5, (3, 0))

end AStarPF

namespace AStarPF

set_option maxRecDepth 1000000

/-! ### Multiset content of the heapq operations -/

theorem getD_set_ne {α : Type} (l : List α) (i j : Nat) (hij : i ≠ j) (a d : α) :
    (l.set i a).getD j d = l.getD j d := by
  rcases Nat.lt_or_ge j l.length with h | h
  · rw [List.getD_eq_getElem _ _ (by simpa using h), List.getD_eq_getElem _ _ h]
    exact List.getElem_set_ne hij _
  · rw [List.getD_eq_default, List.getD_eq_default _ _ h]
    simpa using h

theorem set_append_len {α : Type} (l : List α) (x y : α) :
    (l ++ [x]).set l.length y = l ++ [y] := by
  induction l with
  | nil => rfl
  | cons h t ih => simp [List.set, ih]

theorem set_exchange {α : Type} (d a : α) :
    ∀ (l : List α) (i : Nat), i < l.length →
      (↑(l.set i a) : Multiset α) + {l.getD i d} = (↑l : Multiset α) + {a}
  | [], i, h => absurd h (by simp)
  | x :: t, 0, _ => by
    simp only [List.set, List.getD_cons_zero, ← Multiset.cons_coe]
    rw [add_comm, Multiset.singleton_add, add_comm, Multiset.singleton_add,
      Multiset.cons_swap]
  | x :: t, i + 1, h => by
    simp only [List.set, List.getD_cons_succ, ← Multiset.cons_coe]
    rw [Multiset.cons_add, Multiset.cons_add,
      set_exchange d a t i (by simpa using h)]

theorem set_set_swap {α : Type} (d a : α) (l : List α) (i j : Nat)
    (hij : i ≠ j) (hi : i < l.length) (hj : j < l.length) :
    (↑((l.set i (l.getD j d)).set j a) : Multiset α) = ↑(l.set i a) := by
  have e1 := set_exchange d a (l.set i (l.getD j d)) j (by simpa using hj)
  rw [getD_set_ne _ i j hij] at e1
  have e2 := set_exchange d (l.getD j d) l i hi
  have e3 := set_exchange d a l i hi
  refine add_right_cancel (b := {l.getD j d} + {l.getD i d}) ?_
  calc (↑((l.set i (l.getD j d)).set j a) : Multiset α) + ({l.getD j d} + {l.getD i d})
      = ((↑((l.set i (l.getD j d)).set j a) : Multiset α) + {l.getD j d}) + {l.getD i d} := by
        rw [add_assoc]
    _ = ((↑(l.set i (l.getD j d)) : Multiset α) + {a}) + {l.getD i d} := by rw [e1]
    _ = ((↑(l.set i (l.getD j d)) : Multiset α) + {l.getD i d}) + {a} := by
        rw [add_right_comm]
    _ = ((↑l : Multiset α) + {l.getD j d}) + {a} := by rw [e2]
    _ = ((↑l : Multiset α) + {a}) + {l.getD j d} := by rw [add_right_comm]
    _ = ((↑(l.set i a) : Multiset α) + {l.getD i d}) + {l.getD j d} := by rw [e3]
    _ = (↑(l.set i a) : Multiset α) + ({l.getD j d} + {l.getD i d}) := by
        rw [add_assoc, add_comm ({l.getD i d} : Multiset α)]

theorem siftdownGo_mset {α : Type} (lt : α → α → Bool) (d newitem : α) (startpos : Nat) :
    ∀ (fuel : Nat) (heap : List α) (pos : Nat), pos < heap.length → pos ≤ fuel →
      (↑(siftdownGo lt d newitem startpos fuel heap pos) : Multiset α) =
        ↑(heap.set pos newitem)
  | 0, heap, pos, _, _ => rfl
  | fuel + 1, heap, pos, hlen, hfuel => by
    have hpp : (pos - 1) / 2 ≤ pos - 1 := Nat.div_le_self _ 2
    show (↑(if startpos < pos then _ else heap.set pos newitem) : Multiset α) = _
    dsimp only
    split
    case isFalse => rfl
    case isTrue h =>
      split
      case isFalse => rfl
      case isTrue hlt =>
        rw [siftdownGo_mset lt d newitem startpos fuel
          (heap.set pos (heap.getD ((pos - 1) / 2) d)) ((pos - 1) / 2)
          (by simpa using Nat.lt_of_le_of_lt hpp (by omega)) (by omega)]
        exact set_set_swap d newitem heap pos ((pos - 1) / 2) (by omega) hlen
          (Nat.lt_of_le_of_lt hpp (by omega))

theorem siftupGo_mset {α : Type} (lt : α → α → Bool) (d newitem : α) (startpos : Nat) :
    ∀ (fuel : Nat) (heap : List α) (pos : Nat), pos < heap.length →
      heap.length ≤ fuel + pos + 1 →
      (↑(siftupGo lt d newitem startpos fuel heap pos) : Multiset α) =
        ↑(heap.set pos newitem)
  | 0, heap, pos, hlen, hfuel => by
    show (↑(siftdownLoop lt d (heap.set pos newitem) startpos newitem pos) : Multiset α) = _
    rw [siftdownLoop, siftdownGo_mset lt d newitem startpos pos _ pos (by simpa using hlen)
      (Nat.le_refl _), List.set_set]
  | fuel + 1, heap, pos, hlen, hfuel => by
    show (↑(if 2 * pos + 1 < heap.length then _ else
      siftdownLoop lt d (heap.set pos newitem) startpos newitem pos) : Multiset α) = _
    split
    case isFalse =>
      rw [siftdownLoop, siftdownGo_mset lt d newitem startpos pos _ pos
        (by simpa using hlen) (Nat.le_refl _), List.set_set]
    case isTrue h =>
      have key : ∀ childpos : Nat, pos < childpos → childpos < heap.length →
          (↑(siftupGo lt d newitem startpos fuel
              (heap.set pos (heap.getD childpos d)) childpos) : Multiset α) =
            ↑(heap.set pos newitem) := by
        intro childpos h1 h2
        rw [siftupGo_mset lt d newitem startpos fuel _ childpos (by simpa using h2)
          (by simp only [List.length_set]; omega)]
        exact set_set_swap d newitem heap pos childpos (by omega) hlen h2
      split
      case isTrue h2 =>
        simp only [Bool.and_eq_true, decide_eq_true_eq] at h2
        exact key _ (by omega) h2.1
      case isFalse h2 => exact key _ (by omega) h

theorem heappush_mset {α : Type} (lt : α → α → Bool) (d : α) (l : List α) (x : α) :
    (↑(heappush lt d l x) : Multiset α) = x ::ₘ ↑l := by
  rw [heappush, siftdownLoop, siftdownGo_mset lt d x 0 l.length (l ++ [x]) l.length
    (by simp) (Nat.le_refl _), set_append_len]
  show (↑l : Multiset α) + ↑[x] = x ::ₘ ↑l
  rw [show (↑[x] : Multiset α) = {x} from rfl, add_comm, Multiset.singleton_add]

theorem heappop_none_iff {α : Type} (lt : α → α → Bool) (d : α) (heap : List α) :
    heappop lt d heap = none ↔ heap = [] := by
  cases heap with
  | nil => simp [heappop]
  | cons a t =>
    simp only [heappop]
    cases hdl : (a :: t).dropLast <;> simp

theorem heappop_mset {α : Type} (lt : α → α → Bool) (d : α) (heap : List α)
    (e : α) (rest : List α) (hpop : heappop lt d heap = some (e, rest)) :
    (↑heap : Multiset α) = e ::ₘ ↑rest := by
  cases heap with
  | nil => simp [heappop] at hpop
  | cons a t =>
    have hne : (a :: t) ≠ [] := List.cons_ne_nil a t
    have hsplit : (a :: t).dropLast ++ [(a :: t).getLast hne] = a :: t :=
      List.dropLast_append_getLast hne
    rw [heappop] at hpop
    cases hdl : (a :: t).dropLast with
    | nil =>
      rw [hdl] at hpop
      simp only [Option.some.injEq, Prod.mk.injEq] at hpop
      obtain ⟨he, hrest⟩ := hpop
      rw [hdl] at hsplit
      rw [← hsplit, ← he, ← hrest]
      rfl
    | cons b u =>
      rw [hdl] at hpop
      simp only [Option.some.injEq, Prod.mk.injEq] at hpop
      obtain ⟨he, hrest⟩ := hpop
      rw [hdl] at hsplit
      have hlen0 : (0 : Nat) < (b :: u).length := by simp
      have hmset : (↑rest : Multiset α) =
          ↑((b :: u).set 0 ((a :: t).getLast hne)) := by
        rw [← hrest, siftupLoop, siftupGo_mset lt d ((a :: t).getLast hne) 0 _ _ 0
          (by simpa using hlen0) (by simp), List.set_set]
      have hex := set_exchange ((a :: t).getLast hne) ((a :: t).getLast hne) (b :: u) 0 hlen0
      have hcoe : (↑(a :: t) : Multiset α) = ↑(b :: u) + {(a :: t).getLast hne} := by
        have := congrArg (fun l : List α => (↑l : Multiset α)) hsplit
        exact this.symm
      rw [hcoe, ← hex, ← hmset, ← he]
      have : (b :: u).getD 0 ((a :: t).getLast hne) = b := rfl
      rw [this, add_comm, Multiset.singleton_add]

/-! ### Elementary helper lemmas -/

theorem upd_self {β : Type} (m : CellId → β) (k : CellId) (v : β) : upd m k v k = v := by
  simp [upd]

theorem upd_ne {β : Type} (m : CellId → β) (k x : CellId) (v : β) (h : x ≠ k) :
    upd m k v x = m x := by
  simp [upd, h]

theorem mem_setAdd (c a : CellId) (l : List CellId) :
    c ∈ setAdd a l ↔ c = a ∨ c ∈ l := by
  unfold setAdd
  split
  case isTrue h => exact ⟨fun hc => Or.inr hc, fun hc => hc.elim (fun he => he ▸ h) id⟩
  case isFalse h => simp

theorem setAdd_of_not_mem {a : CellId} {l : List CellId} (h : a ∉ l) :
    setAdd a l = a :: l := by
  simp [setAdd, h]

theorem heuristic_self (c : CellId) : heuristic c c = 0 := by
  simp [heuristic]

theorem heuristic_comm (a b : CellId) : heuristic a b = heuristic b a := by
  unfold heuristic
  omega

theorem mem_neighborsOf {COLS ROWS : Nat} {c nb : CellId}
    (h : nb ∈ neighborsOf COLS ROWS c) :
    heuristic c nb = 1 ∧ (inBounds COLS ROWS c → inBounds COLS ROWS nb) := by
  unfold neighborsOf at h
  simp only [List.mem_append, List.mem_ite_nil_right, List.mem_singleton] at h
  rcases h with ((⟨hcond, hnb⟩ | ⟨hcond, hnb⟩) | ⟨hcond, hnb⟩) | ⟨hcond, hnb⟩ <;>
    subst hnb <;>
    refine ⟨by simp only [heuristic]; omega, fun hb => ?_⟩ <;>
    obtain ⟨h1, h2⟩ := hb <;>
    exact ⟨by simp only; omega, by simp only; omega⟩

theorem ne_of_mem_neighborsOf {COLS ROWS : Nat} {c nb : CellId}
    (h : nb ∈ neighborsOf COLS ROWS c) : nb ≠ c := by
  intro he
  have := (mem_neighborsOf h).1
  rw [he, heuristic_self] at this
  exact absurd this (by omega)

theorem in_open_iff (s : PFState) (nb : CellId) :
    (s.openSet.any fun e => decide (e.2 = nb)) = true ↔ nb ∈ openCells s := by
  simp [openCells, List.any_eq_true, List.mem_map]

theorem chainAdj_append_one :
    ∀ (l : List CellId) (x a : CellId), chainAdj l = true →
      l.getLast? = some x → heuristic x a = 1 → chainAdj (l ++ [a]) = true
  | [], x, a, _, hlast, _ => by simp at hlast
  | [y], x, a, _, hlast, hadj => by
    simp only [List.getLast?_singleton, Option.some.injEq] at hlast
    subst hlast
    simp [chainAdj, hadj]
  | y :: z :: t, x, a, hchain, hlast, hadj => by
    rw [chainAdj] at hchain
    rw [Bool.and_eq_true] at hchain
    have hlast' : (z :: t).getLast? = some x := by
      rw [List.getLast?_cons_cons] at hlast
      exact hlast
    show chainAdj (y :: ((z :: t) ++ [a])) = true
    have ih := chainAdj_append_one (z :: t) x a hchain.2 hlast' hadj
    rw [show (z :: t) ++ [a] = z :: (t ++ [a]) from rfl] at ih ⊢
    rw [chainAdj, Bool.and_eq_true]
    exact ⟨hchain.1, ih⟩

theorem heappush_length {α : Type} (lt : α → α → Bool) (d : α) (l : List α) (x : α) :
    (heappush lt d l x).length = l.length + 1 := by
  have := congrArg Multiset.card (heappush_mset lt d l x)
  simpa using this

theorem heappop_length {α : Type} {lt : α → α → Bool} {d : α} {heap rest : List α}
    {e : α} (h : heappop lt d heap = some (e, rest)) :
    heap.length = rest.length + 1 := by
  have := congrArg Multiset.card (heappop_mset lt d heap e rest h)
  simpa using this

theorem mset_cons_of_heappop {α : Type} {lt : α → α → Bool} {d : α}
    {heap rest : List α} {e : α} (h : heappop lt d heap = some (e, rest)) :
    (↑heap : Multiset α) = e ::ₘ ↑rest :=
  heappop_mset lt d heap e rest h

theorem mem_of_mset_cons_self {α : Type} {l r : List α} {a : α}
    (h : (↑l : Multiset α) = a ::ₘ ↑r) : a ∈ l := by
  have : a ∈ (↑l : Multiset α) := by rw [h]; exact Multiset.mem_cons_self a _
  simpa using this

theorem mem_of_mset_cons {α : Type} {l r : List α} {a x : α}
    (h : (↑l : Multiset α) = a ::ₘ ↑r) (hx : x ∈ r) : x ∈ l := by
  have : x ∈ (↑l : Multiset α) := by rw [h]; exact Multiset.mem_cons_of_mem (by simpa using hx)
  simpa using this

theorem eq_or_mem_of_mset_cons {α : Type} {l r : List α} {a x : α}
    (h : (↑l : Multiset α) = a ::ₘ ↑r) (hx : x ∈ l) : x = a ∨ x ∈ r := by
  have : x ∈ (↑l : Multiset α) := by simpa using hx
  rw [h, Multiset.mem_cons] at this
  simpa using this

theorem nodup_of_mset_cons {α : Type} {l r : List α} {a : α}
    (h : (↑l : Multiset α) = a ::ₘ ↑r) (hl : l.Nodup) : a ∉ r ∧ r.Nodup := by
  have : Multiset.Nodup (a ::ₘ (↑r : Multiset α)) := by
    rw [← h]
    exact (Multiset.coe_nodup).mpr hl
  rw [Multiset.nodup_cons] at this
  exact ⟨by simpa using this.1, by simpa using this.2⟩

theorem map_mset_cells {l rest : List Entry} {e : Entry}
    (h : (↑l : Multiset Entry) = e ::ₘ ↑rest) :
    (↑(l.map Prod.snd) : Multiset CellId) = e.2 ::ₘ ↑(rest.map Prod.snd) := by
  have h2 : Multiset.map Prod.snd (↑l : Multiset Entry) =
      Multiset.map Prod.snd (e ::ₘ (↑rest : Multiset Entry)) := by rw [h]
  rw [Multiset.map_cons] at h2
  exact h2

theorem heappush_cells (lt : Entry → Entry → Bool) (d : Entry) (l : List Entry)
    (x : Entry) :
    (↑((heappush lt d l x).map Prod.snd) : Multiset CellId) =
      x.2 ::ₘ ↑(l.map Prod.snd) := by
  have h2 : Multiset.map Prod.snd (↑(heappush lt d l x) : Multiset Entry) =
      Multiset.map Prod.snd (x ::ₘ (↑l : Multiset Entry)) := by
    rw [heappush_mset]
  rw [Multiset.map_cons] at h2
  exact h2

/-! ### Preservation of the engine invariant -/

section Invariant

variable {COLS ROWS : Nat} {obstacle : CellId → Bool} {startc endc : CellId}

theorem relaxNeighbor_frame (obstacle : CellId → Bool) (endc : CellId)
    (s : PFState) (cur nb : CellId) :
    (relaxNeighbor obstacle endc s cur nb).closedSet = s.closedSet ∧
    (relaxNeighbor obstacle endc s cur nb).found = s.found ∧
    (relaxNeighbor obstacle endc s cur nb).current = s.current := by
  unfold relaxNeighbor
  dsimp only
  split
  case isFalse => exact ⟨rfl, rfl, rfl⟩
  case isTrue =>
    split
    case isFalse => exact ⟨rfl, rfl, rfl⟩
    case isTrue =>
      split
      case isTrue => exact ⟨rfl, rfl, rfl⟩
      case isFalse => exact ⟨rfl, rfl, rfl⟩

/-- Invariant preservation for the cost-record update of a relaxation,
generic over the resulting open set `O`: either the relaxation leaves the
frontier untouched (in-frontier neighbor) or it pushes exactly one new
entry for a neighbor that had none. -/
theorem updMaps_loopInv {cur nb : CellId} {s : PFState} {O : List Entry}
    (L : LoopInv COLS ROWS obstacle startc endc cur s)
    (hnb : nb ∈ neighborsOf COLS ROWS cur)
    (hnotclosed : nb ∉ s.closedSet) (hobs : obstacle nb = false)
    (hdec : ∀ c, s.parent c = some nb → s.g cur + 1 < s.g c)
    (hO : (nb ∈ openCells s ∧
        (↑(O.map Prod.snd) : Multiset CellId) = ↑(openCells s)) ∨
      (nb ∉ openCells s ∧
        (↑(O.map Prod.snd) : Multiset CellId) = nb ::ₘ ↑(openCells s))) :
    LoopInv COLS ROWS obstacle startc endc cur
      { s with parent := upd s.parent nb (some cur),
               g := upd s.g nb (s.g cur + cost cur nb),
               h := upd s.h nb (heuristic nb endc),
               f := upd s.f nb (s.g cur + cost cur nb + heuristic nb endc),
               openSet := O } := by
  have hne_cur : nb ≠ cur := ne_of_mem_neighborsOf hnb
  have hadj : heuristic cur nb = 1 := (mem_neighborsOf hnb).1
  have hnbBounds : inBounds COLS ROWS nb := (mem_neighborsOf hnb).2 L.curBounds
  have hstartne : nb ≠ startc := fun he => hnotclosed (he ▸ L.startClosed)
  have hcost : cost cur nb = 1 := rfl
  -- membership in the new frontier cells
  have hmemO : ∀ c : CellId, c ∈ O.map Prod.snd ↔ (c ∈ openCells s ∨
      (nb ∉ openCells s ∧ c = nb)) := by
    intro c
    rcases hO with ⟨hin, hO⟩ | ⟨hnin, hO⟩
    · constructor
      · intro hc
        refine Or.inl ?_
        have : c ∈ (↑(openCells s) : Multiset CellId) := by rw [← hO]; simpa using hc
        simpa using this
      · rintro (hc | ⟨hnin, hc⟩)
        · have : c ∈ (↑(O.map Prod.snd) : Multiset CellId) := by rw [hO]; simpa using hc
          simpa using this
        · exact absurd hin hnin
    · constructor
      · intro hc
        rcases eq_or_mem_of_mset_cons hO hc with hc | hc
        · exact Or.inr ⟨hnin, hc⟩
        · exact Or.inl hc
      · rintro (hc | ⟨_, hc⟩)
        · exact mem_of_mset_cons hO hc
        · subst hc
          exact mem_of_mset_cons_self hO
  have Pmono : ∀ c, (c = startc ∨ s.parent c ≠ none) →
      (c = startc ∨ upd s.parent nb (some cur) c ≠ none) := by
    intro c h
    refine h.elim Or.inl fun hp => Or.inr ?_
    by_cases hc : c = nb
    · subst hc; rw [upd_self]; simp
    · rw [upd_ne _ _ _ _ hc]; exact hp
  have hPnb : upd s.parent nb (some cur) nb = some cur := upd_self _ _ _
  refine ⟨⟨?_, ?_, ?_, ?_, ?_, ?_, ?_, ?_, ?_, ?_, ?_, ?_, ?_, ?_, ?_, ?_, ?_, ?_, ?_, ?_⟩,
    L.notFound, L.curClosed, ?_, L.curFree, L.curBounds, L.curNotEnd, L.curCurrent,
    L.startClosed⟩
  -- openNodup
  · show (O.map Prod.snd).Nodup
    rcases hO with ⟨hin, hO⟩ | ⟨hnin, hO⟩
    · have : Multiset.Nodup (↑(O.map Prod.snd) : Multiset CellId) := by
        rw [hO]; exact (Multiset.coe_nodup).mpr L.inv.openNodup
      simpa using this
    · have : Multiset.Nodup (↑(O.map Prod.snd) : Multiset CellId) := by
        rw [hO, Multiset.nodup_cons]
        exact ⟨by simpa using hnin, (Multiset.coe_nodup).mpr L.inv.openNodup⟩
      simpa using this
  -- closedNodup
  · exact L.inv.closedNodup
  -- openClosedDisj
  · intro c hc
    rcases (hmemO c).mp hc with hc | ⟨_, hc⟩
    · exact L.inv.openClosedDisj c hc
    · subst hc; exact hnotclosed
  -- openBounds
  · intro c hc
    rcases (hmemO c).mp hc with hc | ⟨_, hc⟩
    · exact L.inv.openBounds c hc
    · subst hc; exact hnbBounds
  -- closedBounds
  · exact L.inv.closedBounds
  -- openFree
  · intro c hc
    rcases (hmemO c).mp hc with hc | ⟨_, hc⟩
    · exact L.inv.openFree c hc
    · subst hc; exact hobs
  -- closedFree
  · exact L.inv.closedFree
  -- currentNotEnd
  · intro hf
    exact L.inv.currentNotEnd hf
  -- currentTouched
  · intro c hc
    exact Pmono c (L.inv.currentTouched c hc)
  -- openTouched
  · intro c hc
    rcases (hmemO c).mp hc with hc | ⟨_, hc⟩
    · exact Pmono c (L.inv.openTouched c hc)
    · subst hc
      exact Or.inr (by simp [hPnb])
  -- closedTouched
  · intro c hc
    exact Pmono c (L.inv.closedTouched c hc)
  -- parentAdj
  · intro c p hp
    dsimp only at hp
    by_cases hc : c = nb
    · subst hc
      rw [hPnb] at hp
      cases hp
      exact hadj
    · rw [upd_ne _ _ _ _ hc] at hp
      exact L.inv.parentAdj c p hp
  -- parentBounds
  · intro c p hp
    dsimp only at hp
    by_cases hc : c = nb
    · subst hc
      rw [hPnb] at hp
      cases hp
      exact ⟨hnbBounds, L.curBounds⟩
    · rw [upd_ne _ _ _ _ hc] at hp
      exact L.inv.parentBounds c p hp
  -- parentFree
  · intro c p hp
    dsimp only at hp
    by_cases hc : c = nb
    · subst hc
      rw [hPnb] at hp
      cases hp
      exact ⟨hobs, L.curFree⟩
    · rw [upd_ne _ _ _ _ hc] at hp
      exact L.inv.parentFree c p hp
  -- parentG
  · intro c p hp
    dsimp only at hp ⊢
    by_cases hc : c = nb
    · subst hc
      rw [hPnb] at hp
      cases hp
      rw [upd_ne _ _ _ _ (fun h => hne_cur h.symm), upd_self, hcost]
      omega
    · rw [upd_ne _ _ _ _ hc] at hp
      rw [upd_ne _ _ _ _ hc]
      by_cases hpnb : p = nb
      · subst hpnb
        rw [upd_self, hcost]
        exact hdec c hp
      · rw [upd_ne _ _ _ _ hpnb]
        exact L.inv.parentG c p hp
  -- parentChain
  · intro c p hp
    dsimp only at hp ⊢
    by_cases hc : c = nb
    · subst hc
      rw [hPnb] at hp
      cases hp
      exact Pmono cur (L.inv.closedTouched cur L.curClosed)
    · rw [upd_ne _ _ _ _ hc] at hp
      by_cases hpnb : p = nb
      · subst hpnb
        exact Or.inr (by simp [hPnb])
      · refine (L.inv.parentChain c p hp).elim Or.inl fun h => Or.inr ?_
        rw [upd_ne _ _ _ _ hpnb]
        exact h
  -- startParent
  · show upd s.parent nb (some cur) startc = none
    rw [upd_ne _ _ _ _ (fun h => hstartne h.symm)]
    exact L.inv.startParent
  -- untouched
  · intro _ c hco hcc
    dsimp only at hco hcc ⊢
    have hcnb : c ≠ nb := by
      intro he
      subst he
      rcases hO with ⟨hin, _⟩ | ⟨hnin, _⟩
      · exact hco ((hmemO c).mpr (Or.inl hin))
      · exact hco ((hmemO c).mpr (Or.inr ⟨hnin, rfl⟩))
    have hcold : c ∉ openCells s := fun h => hco ((hmemO c).mpr (Or.inl h))
    obtain ⟨h1, h2⟩ := L.inv.untouched L.notFound c hcold hcc
    exact ⟨by rw [upd_ne _ _ _ _ hcnb]; exact h1, by rw [upd_ne _ _ _ _ hcnb]; exact h2⟩
  -- gBound
  · intro c
    dsimp only
    by_cases hc : c = nb
    · subst hc
      rw [upd_self, hcost]
      have := L.curG
      omega
    · rw [upd_ne _ _ _ _ hc]
      exact L.inv.gBound c
  -- startState
  · exact Or.inl L.startClosed
  -- curG (the LoopInv extra)
  · show upd s.g nb (s.g cur + cost cur nb) cur < s.closedSet.length
    rw [upd_ne _ _ _ _ hne_cur.symm]
    exact L.curG

theorem relaxNeighbor_loopInv {cur nb : CellId} {s : PFState}
    (L : LoopInv COLS ROWS obstacle startc endc cur s)
    (hnb : nb ∈ neighborsOf COLS ROWS cur) :
    LoopInv COLS ROWS obstacle startc endc cur
      (relaxNeighbor obstacle endc s cur nb) := by
  unfold relaxNeighbor
  dsimp only
  split
  case isFalse => exact L
  case isTrue hcond =>
    rw [Bool.and_eq_true, decide_eq_true_eq, Bool.not_eq_true'] at hcond
    obtain ⟨hnotclosed, hobs⟩ := hcond
    split
    case isFalse => exact L
    case isTrue hrelax =>
      split
      case isTrue hpush =>
        have hany : (s.openSet.any fun e => decide (e.2 = nb)) = false := by
          rwa [Bool.not_eq_true'] at hpush
        have hnin : nb ∉ openCells s := fun h => by
          rw [(in_open_iff s nb).mpr h] at hany
          simp at hany
        have hdec : ∀ c, s.parent c = some nb → s.g cur + 1 < s.g c := by
          intro c hpc
          rcases L.inv.parentChain c nb hpc with h | h
          · exact absurd (by rw [h]; exact L.startClosed) hnotclosed
          · exact absurd (L.inv.untouched L.notFound nb hnin hnotclosed).1 h
        exact updMaps_loopInv L hnb hnotclosed hobs hdec
          (Or.inr ⟨hnin, heappush_cells _ _ _ _⟩)
      case isFalse hpush =>
        have hany : (s.openSet.any fun e => decide (e.2 = nb)) = true := by
          cases hx : (s.openSet.any fun e => decide (e.2 = nb)) with
          | true => rfl
          | false => exact absurd (by rw [hx]; rfl) hpush
        have hin : nb ∈ openCells s := (in_open_iff s nb).mp hany
        have htg : s.g cur + cost cur nb < s.g nb := by
          rw [hany] at hrelax
          simpa using hrelax
        have hdec : ∀ c, s.parent c = some nb → s.g cur + 1 < s.g c := by
          intro c hpc
          have h1 := L.inv.parentG c nb hpc
          have hcost : cost cur nb = 1 := rfl
          rw [hcost] at htg
          omega
        exact updMaps_loopInv L hnb hnotclosed hobs hdec (Or.inl ⟨hin, rfl⟩)

theorem processNeighbors_loopInv {cur : CellId} {s : PFState}
    (L : LoopInv COLS ROWS obstacle startc endc cur s) :
    ∀ nbs : List CellId, (∀ nb ∈ nbs, nb ∈ neighborsOf COLS ROWS cur) →
      LoopInv COLS ROWS obstacle startc endc cur
        (processNeighbors obstacle endc s cur nbs)
  | [], _ => L
  | nb :: rest, hnbs =>
    processNeighbors_loopInv
      (relaxNeighbor_loopInv L (hnbs nb (List.mem_cons_self nb rest)))
      rest (fun x hx => hnbs x (List.mem_cons_of_mem nb hx))

theorem processNeighbors_closed (obstacle : CellId → Bool) (endc : CellId)
    (cur : CellId) :
    ∀ (nbs : List CellId) (s : PFState),
      (processNeighbors obstacle endc s cur nbs).closedSet = s.closedSet ∧
      (processNeighbors obstacle endc s cur nbs).found = s.found ∧
      (processNeighbors obstacle endc s cur nbs).current = s.current
  | [], s => ⟨rfl, rfl, rfl⟩
  | nb :: rest, s => by
    have h1 := relaxNeighbor_frame obstacle endc s cur nb
    have h2 := processNeighbors_closed obstacle endc cur rest
      (relaxNeighbor obstacle endc s cur nb)
    exact ⟨h2.1.trans h1.1, h2.2.1.trans h1.2.1, h2.2.2.trans h1.2.2⟩

theorem step_inv {s : PFState} (I : Inv COLS ROWS obstacle startc endc s) :
    Inv COLS ROWS obstacle startc endc (step COLS ROWS obstacle endc s) := by
  unfold step
  split
  case isTrue hcond =>
    rw [Bool.and_eq_true, decide_eq_true_eq, Bool.not_eq_true'] at hcond
    obtain ⟨hlen, hnf⟩ := hcond
    rcases hpop : heappop (entryLt s.f) (0, (0, 0)) s.openSet with _ | ⟨e, rest⟩
    · exact I
    · dsimp only
      have hmsetE : (↑s.openSet : Multiset Entry) = e ::ₘ ↑rest :=
        mset_cons_of_heappop hpop
      have hcells : (↑(openCells s) : Multiset CellId) =
          e.2 ::ₘ ↑(rest.map Prod.snd) := map_mset_cells hmsetE
      have hnodup := nodup_of_mset_cons hcells I.openNodup
      have hcurmem : e.2 ∈ openCells s := mem_of_mset_cons_self hcells
      have hnotclosed : e.2 ∉ s.closedSet := I.openClosedDisj e.2 hcurmem
      have hbounds := I.openBounds e.2 hcurmem
      have hfreecur := I.openFree e.2 hcurmem
      split
      case isTrue heq =>
        exact
          { openNodup := hnodup.2
            closedNodup := I.closedNodup
            openClosedDisj := fun c hc => I.openClosedDisj c (mem_of_mset_cons hcells hc)
            openBounds := fun c hc => I.openBounds c (mem_of_mset_cons hcells hc)
            closedBounds := I.closedBounds
            openFree := fun c hc => I.openFree c (mem_of_mset_cons hcells hc)
            closedFree := I.closedFree
            currentNotEnd := fun h => nomatch h
            currentTouched := fun c hc => by cases hc; exact I.openTouched _ hcurmem
            openTouched := fun c hc => I.openTouched c (mem_of_mset_cons hcells hc)
            closedTouched := I.closedTouched
            parentAdj := I.parentAdj
            parentBounds := I.parentBounds
            parentFree := I.parentFree
            parentG := I.parentG
            parentChain := I.parentChain
            startParent := I.startParent
            untouched := fun h => nomatch h
            gBound := I.gBound
            startState := Or.inr (Or.inr rfl) }
      case isFalse hne =>
        have hsetadd : setAdd e.2 s.closedSet = e.2 :: s.closedSet :=
          setAdd_of_not_mem hnotclosed
        have hstartclosed2 : startc ∈ setAdd e.2 s.closedSet := by
          rcases I.startState with h | ⟨hoc, _⟩ | h
          · exact (mem_setAdd _ _ _).mpr (Or.inr h)
          · have he : e.2 = startc := by
              rw [hoc] at hcurmem
              simpa using hcurmem
            exact (mem_setAdd _ _ _).mpr (Or.inl he.symm)
          · rw [hnf] at h
            cases h
        refine (processNeighbors_loopInv ?_ (neighborsOf COLS ROWS e.2)
          fun x hx => hx).inv
        exact
          { inv :=
            { openNodup := hnodup.2
              closedNodup := by
                show (setAdd e.2 s.closedSet).Nodup
                rw [hsetadd]
                exact List.nodup_cons.mpr ⟨hnotclosed, I.closedNodup⟩
              openClosedDisj := fun c hc hmem => by
                rcases (mem_setAdd c e.2 s.closedSet).mp hmem with h | h
                · exact hnodup.1 (h ▸ hc)
                · exact I.openClosedDisj c (mem_of_mset_cons hcells hc) h
              openBounds := fun c hc => I.openBounds c (mem_of_mset_cons hcells hc)
              closedBounds := fun c hc => by
                rcases (mem_setAdd c e.2 s.closedSet).mp hc with h | h
                · exact h ▸ hbounds
                · exact I.closedBounds c h
              openFree := fun c hc => I.openFree c (mem_of_mset_cons hcells hc)
              closedFree := fun c hc => by
                rcases (mem_setAdd c e.2 s.closedSet).mp hc with h | h
                · exact h ▸ hfreecur
                · exact I.closedFree c h
              currentNotEnd := fun _ h => hne (Option.some.inj h)
              currentTouched := fun c hc => by cases hc; exact I.openTouched _ hcurmem
              openTouched := fun c hc => I.openTouched c (mem_of_mset_cons hcells hc)
              closedTouched := fun c hc => by
                rcases (mem_setAdd c e.2 s.closedSet).mp hc with h | h
                · exact h ▸ I.openTouched e.2 hcurmem
                · exact I.closedTouched c h
              parentAdj := I.parentAdj
              parentBounds := I.parentBounds
              parentFree := I.parentFree
              parentG := I.parentG
              parentChain := I.parentChain
              startParent := I.startParent
              untouched := fun _ c hco hcc => by
                have h1 : c ≠ e.2 := fun he =>
                  hcc ((mem_setAdd c e.2 s.closedSet).mpr (Or.inl he))
                have h2 : c ∉ s.closedSet := fun hcl =>
                  hcc ((mem_setAdd c e.2 s.closedSet).mpr (Or.inr hcl))
                have h3 : c ∉ openCells s := fun ho => by
                  rcases eq_or_mem_of_mset_cons hcells ho with h | h
                  · exact h1 h
                  · exact hco h
                exact I.untouched hnf c h3 h2
              gBound := fun c => by
                show s.g c ≤ (setAdd e.2 s.closedSet).length
                rw [hsetadd]
                exact Nat.le_succ_of_le (I.gBound c)
              startState := Or.inl hstartclosed2 }
            notFound := hnf
            curClosed := (mem_setAdd _ _ _).mpr (Or.inl rfl)
            curG := by
              show s.g e.2 < (setAdd e.2 s.closedSet).length
              rw [hsetadd]
              exact Nat.lt_succ_of_le (I.gBound e.2)
            curFree := hfreecur
            curBounds := hbounds
            curNotEnd := hne
            curCurrent := rfl
            startClosed := hstartclosed2 }
  case isFalse =>
    split
    case isTrue hcond2 =>
      exact
        { openNodup := I.openNodup
          closedNodup := I.closedNodup
          openClosedDisj := I.openClosedDisj
          openBounds := I.openBounds
          closedBounds := I.closedBounds
          openFree := I.openFree
          closedFree := I.closedFree
          currentNotEnd := fun h => nomatch h
          currentTouched := I.currentTouched
          openTouched := I.openTouched
          closedTouched := I.closedTouched
          parentAdj := I.parentAdj
          parentBounds := I.parentBounds
          parentFree := I.parentFree
          parentG := I.parentG
          parentChain := I.parentChain
          startParent := I.startParent
          untouched := fun h => nomatch h
          gBound := I.gBound
          startState := Or.inr (Or.inr rfl) }
    case isFalse => exact I

theorem initState_inv (hstart : inBounds COLS ROWS startc)
    (hfree : obstacle startc = false) :
    Inv COLS ROWS obstacle startc endc (initState startc) :=
  { openNodup := List.nodup_singleton startc
    closedNodup := List.nodup_nil
    openClosedDisj := fun c _ hc => by cases hc
    openBounds := fun c hc => by
      rw [show openCells (initState startc) = [startc] from rfl,
        List.mem_singleton] at hc
      exact hc ▸ hstart
    closedBounds := fun c hc => by cases hc
    openFree := fun c hc => by
      rw [show openCells (initState startc) = [startc] from rfl,
        List.mem_singleton] at hc
      exact hc ▸ hfree
    closedFree := fun c hc => by cases hc
    currentNotEnd := fun _ h => by cases h
    currentTouched := fun c hc => by cases hc
    openTouched := fun c hc => by
      rw [show openCells (initState startc) = [startc] from rfl,
        List.mem_singleton] at hc
      exact Or.inl hc
    closedTouched := fun c hc => by cases hc
    parentAdj := fun c p hp => by cases hp
    parentBounds := fun c p hp => by cases hp
    parentFree := fun c p hp => by cases hp
    parentG := fun c p hp => by cases hp
    parentChain := fun c p hp => by cases hp
    startParent := rfl
    untouched := fun _ _ _ _ => ⟨rfl, rfl⟩
    gBound := fun _ => Nat.le_refl 0
    startState := Or.inr (Or.inl ⟨rfl, rfl⟩) }

theorem runSteps_inv (hstart : inBounds COLS ROWS startc)
    (hfree : obstacle startc = false) :
    ∀ n, Inv COLS ROWS obstacle startc endc
      (runSteps COLS ROWS obstacle startc endc n)
  | 0 => initState_inv hstart hfree
  | n + 1 => step_inv (runSteps_inv hstart hfree n)

end Invariant

/-! ### Consequences of the invariant -/

theorem mem_boundsGrid (COLS ROWS : Nat) (c : CellId) :
    c ∈ boundsGrid COLS ROWS ↔ inBounds COLS ROWS c := by
  simp [boundsGrid, inBounds, Finset.mem_product]

theorem nodup_bounded_length {COLS ROWS : Nat} {l : List CellId}
    (hn : l.Nodup) (hb : ∀ c ∈ l, inBounds COLS ROWS c) :
    l.length ≤ COLS * ROWS := by
  have h1 : l.toFinset ⊆ boundsGrid COLS ROWS := fun c hc =>
    (mem_boundsGrid COLS ROWS c).mpr (hb c (List.mem_toFinset.mp hc))
  have h2 := Finset.card_le_card h1
  rw [List.toFinset_card_of_nodup hn] at h2
  have h3 : (boundsGrid COLS ROWS).card = COLS * ROWS := by
    simp [boundsGrid]
  omega

theorem mem_iff_of_mset_cons {α : Type} {l r : List α} {a x : α}
    (h : (↑l : Multiset α) = a ::ₘ ↑r) : x ∈ l ↔ x = a ∨ x ∈ r := by
  constructor
  · exact eq_or_mem_of_mset_cons h
  · rintro (hx | hx)
    · exact hx ▸ mem_of_mset_cons_self h
    · exact mem_of_mset_cons h hx

section WalkLemma

variable {COLS ROWS : Nat} {obstacle : CellId → Bool} {startc endc : CellId}

/-- The predecessor walk from any touched cell of an invariant-satisfying
state is a well-formed path: it starts at the cell, ends at the start
cell, consecutive cells are adjacent (in both orders), and every cell on
it is in bounds and obstacle-free. -/
theorem getPathAux_spec {s : PFState}
    (I : Inv COLS ROWS obstacle startc endc s)
    (hstart : inBounds COLS ROWS startc) (hfree : obstacle startc = false) :
    ∀ (fuel : Nat) (c : CellId), s.g c < fuel → (c = startc ∨ s.parent c ≠ none) →
      (getPathAux s.parent fuel c).head? = some c ∧
      (getPathAux s.parent fuel c).getLast? = some startc ∧
      chainAdj (getPathAux s.parent fuel c) = true ∧
      chainAdj (getPathAux s.parent fuel c).reverse = true ∧
      ∀ x ∈ getPathAux s.parent fuel c, inBounds COLS ROWS x ∧ obstacle x = false
  | 0, c, hfuel, _ => absurd hfuel (by omega)
  | fuel + 1, c, hfuel, hdisj => by
    cases hp : s.parent c with
    | none =>
      have hc : c = startc := by
        rcases hdisj with h | h
        · exact h
        · exact absurd hp h
      have hshape : getPathAux s.parent (fuel + 1) c = [c] := by
        show (c :: (match s.parent c with
          | none => ([] : List CellId)
          | some p => getPathAux s.parent fuel p)) = [c]
        rw [hp]
      rw [hshape]
      subst hc
      refine ⟨rfl, rfl, rfl, rfl, ?_⟩
      intro x hx
      rw [List.mem_singleton] at hx
      exact hx ▸ ⟨hstart, hfree⟩
    | some p =>
      have hgp : s.g p < s.g c := I.parentG c p hp
      have hpdisj : p = startc ∨ s.parent p ≠ none := I.parentChain c p hp
      obtain ⟨hhead, hlast, hchain, hchainrev, hmem⟩ :=
        getPathAux_spec I hstart hfree fuel p (by omega) hpdisj
      obtain ⟨w', hw⟩ : ∃ w', getPathAux s.parent fuel p = p :: w' := by
        cases hwc : getPathAux s.parent fuel p with
        | nil => rw [hwc] at hhead; cases hhead
        | cons a w' =>
          rw [hwc] at hhead
          cases hhead
          exact ⟨w', rfl⟩
      have hshape : getPathAux s.parent (fuel + 1) c =
          c :: getPathAux s.parent fuel p := by
        show (c :: (match s.parent c with
          | none => ([] : List CellId)
          | some p => getPathAux s.parent fuel p)) = _
        rw [hp]
      rw [hshape]
      have hadj : heuristic p c = 1 := I.parentAdj c p hp
      refine ⟨rfl, ?_, ?_, ?_, ?_⟩
      · rw [hw, List.getLast?_cons_cons, ← hw]
        exact hlast
      · rw [hw]
        show chainAdj (c :: p :: w') = true
        rw [chainAdj, Bool.and_eq_true]
        exact ⟨by simpa using heuristic_comm p c ▸ hadj, by rw [← hw]; exact hchain⟩
      · show chainAdj (c :: getPathAux s.parent fuel p).reverse = true
        rw [List.reverse_cons]
        refine chainAdj_append_one _ p c hchainrev ?_ hadj
        rw [List.getLast?_reverse]
        exact hhead
      · intro x hx
        rcases List.mem_cons.mp hx with hx | hx
        · exact hx ▸ ⟨(I.parentBounds c p hp).1, (I.parentFree c p hp).1⟩
        · exact hmem x hx

end WalkLemma

/-! ### Counterexamples and elementary claim theorems -/

/-- **C2** (counterexample).  The claim says the reconstruction returns
the cells ordered start-first, given-cell-last.  On the `4 × 4`
obstacle-free run (start `(0,0)`, goal `(3,3)`), after `FOUND` the
reconstruction from the goal returns the walk goal-first, start-last: the
source's `get_path` performs no reversal. -/
theorem getPath_not_reversed :
    (sqRun 15).found = true ∧
    (sqRun 15).current = some (3, 3) ∧
    getPath 4 4 (sqRun 15) =
      [(3,3), (3,2), (3,1), (3,0), (2,0), (1,0), (0,0)] ∧
    (getPath 4 4 (sqRun 15)).head? ≠ some (0, 0) ∧
    (getPath 4 4 (sqRun 15)).getLast? ≠ some (3, 3) := by
  refine ⟨by decide, by decide, by decide, by decide, by decide⟩

/-- **C3** (counterexample).  The claim says an update of an in-frontier
neighbor's cost record is followed by a push even though an entry exists.
On the `4 × 4` obstacle-free run, the 14th step expands `(0,2)` and
relaxes its neighbor `(0,3)` — whose `g` drops from `5` to `3` — while
`(0,3)` has exactly one pending frontier entry, and no new entry is
pushed: the entry count for `(0,3)` stays `1` and the frontier shrinks by
exactly the popped entry. -/
theorem relax_in_open_no_push :
    ((sqRun 13).openSet.filter fun e => decide (e.2 = (0, 3))).length = 1 ∧
    ((sqRun 14).openSet.filter fun e => decide (e.2 = (0, 3))).length = 1 ∧
    (sqRun 13).g (0, 3) = 5 ∧
    (sqRun 14).g (0, 3) = 3 ∧
    (sqRun 13).openSet.length = 3 ∧
    (sqRun 14).openSet.length = 2 ∧
    (sqRun 14).closedSet = setAdd (0, 2) (sqRun 13).closedSet := by
  refine ⟨by decide, by decide, by decide, by decide, by decide, by decide, by decide⟩

/-- **C5** (counterexample).  The claim says an obstacle start (or goal,
or an out-of-bounds endpoint) raises `InvalidEndpoint` at construction
time.  Constructing on a `2 × 2` grid whose start cell `(0,0)` is an
obstacle — and likewise with a far out-of-bounds start — succeeds: the
source constructor contains no validation and never raises. -/
theorem construction_never_raises :
    (initE 2 2 wallObstacle (0, 0) (1, 1)).isOk = true ∧
    (initE 2 2 (fun c => decide (c = (0, 0))) (0, 0) (1, 1)).isOk = true ∧
    (initE 2 2 emptyObstacle (99, 99) (1, 1)).isOk = true ∧
    ∀ err : ConstructionError,
      (initE 2 2 (fun c => decide (c = (0, 0))) (0, 0) (1, 1)) ≠
        Except.error err := by
  refine ⟨rfl, rfl, rfl, fun err h => by simp [initE] at h⟩

/-- **C5** (amended).  Construction performs no validation whatsoever and
always succeeds, for every grid shape, obstacle mask and endpoint pair —
in-bounds or not, obstacle or not; a grid with zero cells is accepted as
well.  Separately, the `setup` routine silently forces the chosen start
and end cells free of obstacles instead of rejecting them. -/
theorem construction_total :
    ∀ (COLS ROWS : Nat) (obstacle : CellId → Bool) (startc endc : CellId)
      (entries : List CellId),
      (initE COLS ROWS obstacle startc endc).isOk = true ∧
      setupObstacle COLS ROWS entries startc endc startc = false ∧
      setupObstacle COLS ROWS entries startc endc endc = false := by
  intro COLS ROWS obstacle startc endc entries
  refine ⟨rfl, ?_, ?_⟩ <;> simp [setupObstacle]

/-- **C7** (counterexample).  The claim says equal-estimate entries are
extracted first-in-first-out.  Pushing four entries of equal estimate `5`
in the order `a = (5,(0,0))`, `b = (5,(1,0))`, `c = (5,(2,0))`,
`d = (5,(3,0))` into an empty frontier, the second extraction returns
`c`, which was pushed *after* `b`: `heapq` does not break ties by
insertion order. -/
theorem tie_not_fifo :
    heappop (entryLt tieF) (0, (0, 0)) tieHeap =
      some ((5, (0, 0)), [(5, (2, 0)), (5, (1, 0)), (5, (3, 0))]) ∧
    heappop (entryLt tieF) (0, (0, 0)) [(5, (2, 0)), (5, (1, 0)), (5, (3, 0))] =
      some ((5, (2, 0)), [(5, (1, 0)), (5, (3, 0))]) := by
  refine ⟨by decide, by decide⟩

/-- **C1** (counterexample).  The claim says the path returned upon
`FOUND` always has the true shortest edge count.  On the `7 × 4` grid
with obstacles `(1,0)`, `(1,1)`, `(4,1)`, start `(6,1)` and goal
`(0,0)` — a solvable instance — the engine reports `FOUND` after 22
steps and reconstruction from the goal yields a path of 11 edges, while
breadth-first search on the same grid gives shortest length 9, and a
9-edge valid path is exhibited explicitly.  The cause: the source updates
an in-frontier neighbor's `g`/`f` without pushing a fresh entry, so the
stale frontier priority lets a cell be expanded and closed with a
non-optimal cost. -/
theorem astar_suboptimal :
    (cexRun 21).found = false ∧
    (cexRun 22).found = true ∧
    (cexRun 22).current = some (0, 0) ∧
    getPath 7 4 (cexRun 22) =
      [(0,0), (0,1), (0,2), (1,2), (2,2), (2,1), (2,0), (3,0), (4,0), (5,0), (5,1), (6,1)] ∧
    (getPath 7 4 (cexRun 22)).length - 1 = 11 ∧
    bfsDist 7 4 cexObstacle (6, 1) (0, 0) = some 9 ∧
    IsValidPath 7 4 cexObstacle cexShortPath ∧
    cexShortPath.head? = some (6, 1) ∧
    cexShortPath.getLast? = some (0, 0) ∧
    cexShortPath.length - 1 = 9 := by
  refine ⟨by decide, by decide, by decide, by decide, by decide, by decide,
    by decide, by decide, by decide, by decide⟩

/-- **C10** (confirmed).  On a freshly constructed engine `current` is
`None`, so `get_path` returns the empty sequence, for every grid shape
and start cell — no error is raised. -/
theorem getPath_fresh_empty :
    ∀ (COLS ROWS : Nat) (startc : CellId),
      getPath COLS ROWS (initState startc) = [] := by
  intro COLS ROWS startc
  rfl

end AStarPF

namespace AStarPF

set_option maxRecDepth 1000000

/-! ### Invariant-based claim theorems -/

/-- **C2** (amended).  For every reachable state with a current cell
`c`, path reconstruction returns the predecessor walk *starting at* `c`:
`c` is the first element and the start cell is the last element — the
order is given-cell-to-start, with no reversal. -/
theorem getPath_walk_order (COLS ROWS : Nat) (obstacle : CellId → Bool)
    (startc endc : CellId) (hstart : inBounds COLS ROWS startc)
    (hfree : obstacle startc = false) (n : Nat) (c : CellId)
    (hcur : (runSteps COLS ROWS obstacle startc endc n).current = some c) :
    (getPath COLS ROWS (runSteps COLS ROWS obstacle startc endc n)).head? =
      some c ∧
    (getPath COLS ROWS (runSteps COLS ROWS obstacle startc endc n)).getLast? =
      some startc := by
  have I := @runSteps_inv COLS ROWS obstacle startc endc hstart hfree n
  have hdisj := I.currentTouched c hcur
  have hfuel : (runSteps COLS ROWS obstacle startc endc n).g c < COLS * ROWS + 1 :=
    Nat.lt_succ_of_le ((I.gBound c).trans
      (nodup_bounded_length I.closedNodup I.closedBounds))
  have W := getPathAux_spec I hstart hfree (COLS * ROWS + 1) c hfuel hdisj
  unfold getPath
  rw [hcur]
  exact ⟨W.1, W.2.1⟩

/-- **C1** (amended).  When a run reports `FOUND` with the goal as
current cell, the reconstruction from the goal is a genuine
4-directional, in-bounds, obstacle-free path connecting the start to the
goal (after reversal), so its edge count is *at least* the true shortest
path length — but, as the counterexample shows, not always equal to it. -/
theorem found_path_valid (COLS ROWS : Nat) (obstacle : CellId → Bool)
    (startc endc : CellId) (hstart : inBounds COLS ROWS startc)
    (hfree : obstacle startc = false) (n : Nat)
    (hfound : (runSteps COLS ROWS obstacle startc endc n).found = true)
    (hcur : (runSteps COLS ROWS obstacle startc endc n).current = some endc) :
    IsValidPath COLS ROWS obstacle
      (getPath COLS ROWS (runSteps COLS ROWS obstacle startc endc n)).reverse ∧
    (getPath COLS ROWS (runSteps COLS ROWS obstacle startc endc n)).reverse.head? =
      some startc ∧
    (getPath COLS ROWS (runSteps COLS ROWS obstacle startc endc n)).reverse.getLast? =
      some endc ∧
    sInf (pathLengths COLS ROWS obstacle startc endc) ≤
      (getPath COLS ROWS (runSteps COLS ROWS obstacle startc endc n)).length - 1 := by
  have I := @runSteps_inv COLS ROWS obstacle startc endc hstart hfree n
  have hdisj := I.currentTouched endc hcur
  have hfuel : (runSteps COLS ROWS obstacle startc endc n).g endc < COLS * ROWS + 1 :=
    Nat.lt_succ_of_le ((I.gBound endc).trans
      (nodup_bounded_length I.closedNodup I.closedBounds))
  have W := getPathAux_spec I hstart hfree (COLS * ROWS + 1) endc hfuel hdisj
  have hpath : getPath COLS ROWS (runSteps COLS ROWS obstacle startc endc n) =
      getPathAux (runSteps COLS ROWS obstacle startc endc n).parent
        (COLS * ROWS + 1) endc := by
    unfold getPath
    rw [hcur]
  rw [hpath]
  obtain ⟨hhead, hlast, _, hchainrev, hmem⟩ := W
  have hlen : 1 ≤ (getPathAux (runSteps COLS ROWS obstacle startc endc n).parent
      (COLS * ROWS + 1) endc).length := by
    cases hwc : getPathAux (runSteps COLS ROWS obstacle startc endc n).parent
        (COLS * ROWS + 1) endc with
    | nil => rw [hwc] at hhead; cases hhead
    | cons a w => simp
  refine ⟨⟨hchainrev, ?_⟩, ?_, ?_, ?_⟩
  · intro x hx
    exact hmem x (List.mem_reverse.mp hx)
  · rw [List.head?_reverse]
    exact hlast
  · rw [List.getLast?_reverse]
    exact hhead
  · refine Nat.sInf_le ?_
    refine ⟨(getPathAux (runSteps COLS ROWS obstacle startc endc n).parent
      (COLS * ROWS + 1) endc).reverse, ⟨hchainrev, ?_⟩, ?_, ?_, ?_⟩
    · intro x hx
      exact hmem x (List.mem_reverse.mp hx)
    · rw [List.head?_reverse]
      exact hlast
    · rw [List.getLast?_reverse]
      exact hhead
    · rw [List.length_reverse]
      omega

/-- **C9** (confirmed).  On every reachable state the frontier holds at
most one entry per cell (the push is guarded by the linear `in_open`
containment scan), so its size never exceeds the number of grid cells. -/
theorem frontier_unique (COLS ROWS : Nat) (obstacle : CellId → Bool)
    (startc endc : CellId) (hstart : inBounds COLS ROWS startc)
    (hfree : obstacle startc = false) (n : Nat) :
    (openCells (runSteps COLS ROWS obstacle startc endc n)).Nodup ∧
    (runSteps COLS ROWS obstacle startc endc n).openSet.length ≤ COLS * ROWS := by
  have I := @runSteps_inv COLS ROWS obstacle startc endc hstart hfree n
  refine ⟨I.openNodup, ?_⟩
  have h1 : (openCells (runSteps COLS ROWS obstacle startc endc n)).length ≤
      COLS * ROWS := nodup_bounded_length I.openNodup I.openBounds
  rw [openCells, List.length_map] at h1
  exact h1

/-- **C4** (confirmed).  Across any run the closed (visited) set never
holds a cell twice, and each `step()` either leaves the visited set
unchanged or expands exactly one cell that was not yet visited (the
popped cell is always un-visited — the stale-pop situation the spec's
discard policy addresses never arises, because the push guard keeps the
frontier duplicate-free and closed cells are never re-pushed).  Hence no
cell is ever expanded more than once, and no error is raised. -/
theorem no_reexpansion (COLS ROWS : Nat) (obstacle : CellId → Bool)
    (startc endc : CellId) (hstart : inBounds COLS ROWS startc)
    (hfree : obstacle startc = false) (n : Nat) :
    (runSteps COLS ROWS obstacle startc endc n).closedSet.Nodup ∧
    ((step COLS ROWS obstacle endc
        (runSteps COLS ROWS obstacle startc endc n)).closedSet =
      (runSteps COLS ROWS obstacle startc endc n).closedSet ∨
     ∃ c, c ∈ openCells (runSteps COLS ROWS obstacle startc endc n) ∧
       c ∉ (runSteps COLS ROWS obstacle startc endc n).closedSet ∧
       (step COLS ROWS obstacle endc
          (runSteps COLS ROWS obstacle startc endc n)).closedSet =
         c :: (runSteps COLS ROWS obstacle startc endc n).closedSet) := by
  have I := @runSteps_inv COLS ROWS obstacle startc endc hstart hfree n
  refine ⟨I.closedNodup, ?_⟩
  unfold step
  split
  case isTrue hcond =>
    rcases hpop : heappop (entryLt (runSteps COLS ROWS obstacle startc endc n).f)
        (0, (0, 0)) (runSteps COLS ROWS obstacle startc endc n).openSet with _ | ⟨e, rest⟩
    · exact Or.inl rfl
    · dsimp only
      have hcells := map_mset_cells (mset_cons_of_heappop hpop)
      have hcurmem : e.2 ∈ openCells (runSteps COLS ROWS obstacle startc endc n) :=
        mem_of_mset_cons_self hcells
      have hnotclosed := I.openClosedDisj e.2 hcurmem
      split
      case isTrue => exact Or.inl rfl
      case isFalse =>
        refine Or.inr ⟨e.2, hcurmem, hnotclosed, ?_⟩
        rw [(processNeighbors_closed obstacle endc e.2 _ _).1]
        exact setAdd_of_not_mem hnotclosed
  case isFalse =>
    split
    case isTrue => exact Or.inl rfl
    case isFalse => exact Or.inl rfl

/-- **C6** (confirmed).  The three spec states are recoverable from the
engine's observable attributes (`found`, `current`, the goal): a step on
an empty frontier with the goal not found produces a terminal state
observed as `EXHAUSTED`, a step that pops the goal produces a terminal
state observed as `FOUND`, a not-yet-terminal state is observed as
`RUNNING`, and `EXHAUSTED` and `FOUND` are distinct values — exhaustion
is reported through the state, not as an error. -/
theorem engine_state_distinct (COLS ROWS : Nat) (obstacle : CellId → Bool)
    (startc endc : CellId) (hstart : inBounds COLS ROWS startc)
    (hfree : obstacle startc = false) (n : Nat) :
    ((runSteps COLS ROWS obstacle startc endc n).openSet = [] →
      (runSteps COLS ROWS obstacle startc endc n).found = false →
      observedState endc (step COLS ROWS obstacle endc
        (runSteps COLS ROWS obstacle startc endc n)) = EngineState.EXHAUSTED ∧
      (step COLS ROWS obstacle endc
        (runSteps COLS ROWS obstacle startc endc n)).found = true) ∧
    (∀ e : Entry, ∀ rest : List Entry,
      (runSteps COLS ROWS obstacle startc endc n).found = false →
      heappop (entryLt (runSteps COLS ROWS obstacle startc endc n).f) (0, (0, 0))
        (runSteps COLS ROWS obstacle startc endc n).openSet = some (e, rest) →
      e.2 = endc →
      observedState endc (step COLS ROWS obstacle endc
        (runSteps COLS ROWS obstacle startc endc n)) = EngineState.FOUND) ∧
    ((runSteps COLS ROWS obstacle startc endc n).found = false →
      observedState endc (runSteps COLS ROWS obstacle startc endc n) =
        EngineState.RUNNING) ∧
    EngineState.EXHAUSTED ≠ EngineState.FOUND := by
  have I := @runSteps_inv COLS ROWS obstacle startc endc hstart hfree n
  refine ⟨?_, ?_, ?_, by decide⟩
  · intro hopen hnf
    have hstep : step COLS ROWS obstacle endc
        (runSteps COLS ROWS obstacle startc endc n) =
        { runSteps COLS ROWS obstacle startc endc n with found := true } := by
      unfold step
      rw [hopen, hnf]
      simp [hopen]
    rw [hstep]
    refine ⟨?_, rfl⟩
    have hne := I.currentNotEnd hnf
    unfold observedState
    simp [hne]
  · intro e rest hnf hpop hgoal
    unfold step
    rw [hpop]
    dsimp only
    have hlen : (runSteps COLS ROWS obstacle startc endc n).openSet.length > 0 := by
      have := heappop_length hpop
      omega
    rw [if_pos (by rw [hnf]; simpa using hlen)]
    rw [if_pos hgoal]
    unfold observedState
    simp [hgoal]
  · intro hnf
    unfold observedState
    rw [hnf]
    simp

end AStarPF

namespace AStarPF

set_option maxRecDepth 1000000

/-! ### The termination measure -/

section Measure

variable {COLS ROWS : Nat} {obstacle : CellId → Bool} {startc endc : CellId}

theorem relaxNeighbor_measure {cur nb : CellId} {s : PFState}
    (L : LoopInv COLS ROWS obstacle startc endc cur s)
    (hnb : nb ∈ neighborsOf COLS ROWS cur) :
    searchMeasure COLS ROWS (relaxNeighbor obstacle endc s cur nb) =
      searchMeasure COLS ROWS s := by
  unfold relaxNeighbor
  dsimp only
  split
  case isFalse => rfl
  case isTrue hcond =>
    rw [Bool.and_eq_true, decide_eq_true_eq, Bool.not_eq_true'] at hcond
    obtain ⟨hnotclosed, hobs⟩ := hcond
    split
    case isFalse => rfl
    case isTrue hrelax =>
      split
      case isFalse => rfl
      case isTrue hpush =>
        have hany : (s.openSet.any fun e => decide (e.2 = nb)) = false := by
          rwa [Bool.not_eq_true'] at hpush
        have hnin : nb ∉ openCells s := fun h => by
          rw [(in_open_iff s nb).mpr h] at hany
          simp at hany
        have hnbBounds : inBounds COLS ROWS nb := (mem_neighborsOf hnb).2 L.curBounds
        have hcells' := heappush_cells
          (entryLt (upd s.f nb (s.g cur + cost cur nb + heuristic nb endc)))
          (0, (0, 0)) s.openSet
          (upd s.f nb (s.g cur + cost cur nb + heuristic nb endc) nb, nb)
        unfold searchMeasure
        dsimp only [openCells]
        have hnbfil : nb ∈ (boundsGrid COLS ROWS).filter
            fun c => c ∉ s.openSet.map Prod.snd ∧ c ∉ s.closedSet :=
          Finset.mem_filter.mpr
            ⟨(mem_boundsGrid COLS ROWS nb).mpr hnbBounds, hnin, hnotclosed⟩
        have hfiltereq : ((boundsGrid COLS ROWS).filter
            fun c => c ∉ (heappush
                (entryLt (upd s.f nb (s.g cur + cost cur nb + heuristic nb endc)))
                (0, (0, 0)) s.openSet
                (upd s.f nb (s.g cur + cost cur nb + heuristic nb endc) nb,
                  nb)).map Prod.snd ∧ c ∉ s.closedSet) =
            ((boundsGrid COLS ROWS).filter
              fun c => c ∉ s.openSet.map Prod.snd ∧ c ∉ s.closedSet).erase nb := by
          ext c
          simp only [Finset.mem_erase, Finset.mem_filter]
          have hme := mem_iff_of_mset_cons (x := c) hcells'
          constructor
          · rintro ⟨hb, hno, hnc⟩
            have hcne : c ≠ nb := by
              intro he
              exact hno (hme.mpr (Or.inl he))
            exact ⟨hcne, hb, fun ho => hno (hme.mpr (Or.inr ho)), hnc⟩
          · rintro ⟨hcne, hb, hno, hnc⟩
            refine ⟨hb, fun ho => ?_, hnc⟩
            rcases hme.mp ho with h | h
            · exact hcne h
            · exact hno h
        rw [hfiltereq, Finset.card_erase_of_mem hnbfil, heappush_length]
        have hpos : 0 < ((boundsGrid COLS ROWS).filter
            fun c => c ∉ s.openSet.map Prod.snd ∧ c ∉ s.closedSet).card :=
          Finset.card_pos.mpr ⟨nb, hnbfil⟩
        omega

theorem processNeighbors_measure {cur : CellId} {s : PFState}
    (L : LoopInv COLS ROWS obstacle startc endc cur s) :
    ∀ nbs : List CellId, (∀ x ∈ nbs, x ∈ neighborsOf COLS ROWS cur) →
      searchMeasure COLS ROWS (processNeighbors obstacle endc s cur nbs) =
        searchMeasure COLS ROWS s
  | [], _ => rfl
  | nb :: rest, hnbs =>
    (processNeighbors_measure
      (relaxNeighbor_loopInv L (hnbs nb (List.mem_cons_self nb rest))) rest
      fun x hx => hnbs x (List.mem_cons_of_mem nb hx)).trans
      (relaxNeighbor_measure L (hnbs nb (List.mem_cons_self nb rest)))

/-- The loop invariant of the expanding branch of `step`, extracted for
reuse. -/
theorem expandState_loopInv {s : PFState} {e : Entry} {rest : List Entry}
    (I : Inv COLS ROWS obstacle startc endc s) (hnf : s.found = false)
    (hpop : heappop (entryLt s.f) (0, (0, 0)) s.openSet = some (e, rest))
    (hne : ¬(e.2 = endc)) :
    LoopInv COLS ROWS obstacle startc endc e.2
      { s with openSet := rest, current := some e.2,
               closedSet := setAdd e.2 s.closedSet } := by
  have hcells := map_mset_cells (mset_cons_of_heappop hpop)
  have hnodup := nodup_of_mset_cons hcells I.openNodup
  have hcurmem : e.2 ∈ openCells s := mem_of_mset_cons_self hcells
  have hnotclosed : e.2 ∉ s.closedSet := I.openClosedDisj e.2 hcurmem
  have hbounds := I.openBounds e.2 hcurmem
  have hfreecur := I.openFree e.2 hcurmem
  have hsetadd : setAdd e.2 s.closedSet = e.2 :: s.closedSet :=
    setAdd_of_not_mem hnotclosed
  have hstartclosed2 : startc ∈ setAdd e.2 s.closedSet := by
    rcases I.startState with h | ⟨hoc, _⟩ | h
    · exact (mem_setAdd _ _ _).mpr (Or.inr h)
    · have he : e.2 = startc := by
        rw [hoc] at hcurmem
        simpa using hcurmem
      exact (mem_setAdd _ _ _).mpr (Or.inl he.symm)
    · rw [hnf] at h
      cases h
  exact
    { inv :=
      { openNodup := hnodup.2
        closedNodup := by
          show (setAdd e.2 s.closedSet).Nodup
          rw [hsetadd]
          exact List.nodup_cons.mpr ⟨hnotclosed, I.closedNodup⟩
        openClosedDisj := fun c hc hmem => by
          rcases (mem_setAdd c e.2 s.closedSet).mp hmem with h | h
          · exact hnodup.1 (h ▸ hc)
          · exact I.openClosedDisj c (mem_of_mset_cons hcells hc) h
        openBounds := fun c hc => I.openBounds c (mem_of_mset_cons hcells hc)
        closedBounds := fun c hc => by
          rcases (mem_setAdd c e.2 s.closedSet).mp hc with h | h
          · exact h ▸ hbounds
          · exact I.closedBounds c h
        openFree := fun c hc => I.openFree c (mem_of_mset_cons hcells hc)
        closedFree := fun c hc => by
          rcases (mem_setAdd c e.2 s.closedSet).mp hc with h | h
          · exact h ▸ hfreecur
          · exact I.closedFree c h
        currentNotEnd := fun _ h => hne (Option.some.inj h)
        currentTouched := fun c hc => by cases hc; exact I.openTouched _ hcurmem
        openTouched := fun c hc => I.openTouched c (mem_of_mset_cons hcells hc)
        closedTouched := fun c hc => by
          rcases (mem_setAdd c e.2 s.closedSet).mp hc with h | h
          · exact h ▸ I.openTouched e.2 hcurmem
          · exact I.closedTouched c h
        parentAdj := I.parentAdj
        parentBounds := I.parentBounds
        parentFree := I.parentFree
        parentG := I.parentG
        parentChain := I.parentChain
        startParent := I.startParent
        untouched := fun _ c hco hcc => by
          have h1 : c ≠ e.2 := fun he =>
            hcc ((mem_setAdd c e.2 s.closedSet).mpr (Or.inl he))
          have h2 : c ∉ s.closedSet := fun hcl =>
            hcc ((mem_setAdd c e.2 s.closedSet).mpr (Or.inr hcl))
          have h3 : c ∉ openCells s := fun ho => by
            rcases eq_or_mem_of_mset_cons hcells ho with h | h
            · exact h1 h
            · exact hco h
          exact I.untouched hnf c h3 h2
        gBound := fun c => by
          show s.g c ≤ (setAdd e.2 s.closedSet).length
          rw [hsetadd]
          exact Nat.le_succ_of_le (I.gBound c)
        startState := Or.inl hstartclosed2 }
      notFound := hnf
      curClosed := (mem_setAdd _ _ _).mpr (Or.inl rfl)
      curG := by
        show s.g e.2 < (setAdd e.2 s.closedSet).length
        rw [hsetadd]
        exact Nat.lt_succ_of_le (I.gBound e.2)
      curFree := hfreecur
      curBounds := hbounds
      curNotEnd := hne
      curCurrent := rfl
      startClosed := hstartclosed2 }

theorem step_measure {s : PFState} (I : Inv COLS ROWS obstacle startc endc s)
    (hnf : s.found = false) :
    (step COLS ROWS obstacle endc s).found = true ∨
    searchMeasure COLS ROWS (step COLS ROWS obstacle endc s) + 1 =
      searchMeasure COLS ROWS s := by
  unfold step
  split
  case isTrue hcond =>
    rw [Bool.and_eq_true, decide_eq_true_eq, Bool.not_eq_true'] at hcond
    obtain ⟨hlen, _⟩ := hcond
    rcases hpop : heappop (entryLt s.f) (0, (0, 0)) s.openSet with _ | ⟨e, rest⟩
    · rw [heappop_none_iff] at hpop
      rw [hpop] at hlen
      simp at hlen
    · dsimp only
      split
      case isTrue => exact Or.inl rfl
      case isFalse hne =>
        refine Or.inr ?_
        have L2 := expandState_loopInv I hnf hpop hne
        rw [processNeighbors_measure L2 (neighborsOf COLS ROWS e.2) fun x hx => hx]
        have hcells := map_mset_cells (mset_cons_of_heappop hpop)
        have hnodup := nodup_of_mset_cons hcells I.openNodup
        have hcurmem : e.2 ∈ openCells s := mem_of_mset_cons_self hcells
        have hnotclosed : e.2 ∉ s.closedSet := I.openClosedDisj e.2 hcurmem
        have hlenrest := heappop_length hpop
        unfold searchMeasure
        dsimp only [openCells]
        have hfiltereq : ((boundsGrid COLS ROWS).filter
            fun c => c ∉ rest.map Prod.snd ∧ c ∉ setAdd e.2 s.closedSet) =
            ((boundsGrid COLS ROWS).filter
              fun c => c ∉ s.openSet.map Prod.snd ∧ c ∉ s.closedSet) := by
          ext c
          simp only [Finset.mem_filter]
          have hme := mem_iff_of_mset_cons (x := c) hcells
          have hms := mem_setAdd c e.2 s.closedSet
          constructor
          · rintro ⟨hb, hno, hnc⟩
            have hcne : c ≠ e.2 := fun he => hnc (hms.mpr (Or.inl he))
            refine ⟨hb, fun ho => ?_, fun hcl => hnc (hms.mpr (Or.inr hcl))⟩
            rcases hme.mp ho with h | h
            · exact hcne h
            · exact hno h
          · rintro ⟨hb, hno, hnc⟩
            have hcne : c ≠ e.2 := fun he => hno (he ▸ hcurmem)
            refine ⟨hb, fun ho => hno (hme.mpr (Or.inr ho)), fun hcl => ?_⟩
            rcases hms.mp hcl with h | h
            · exact hcne h
            · exact hnc h
        rw [hfiltereq]
        omega
  case isFalse hc1 =>
    split
    case isTrue => exact Or.inl rfl
    case isFalse hc2 =>
      exfalso
      rw [hnf] at hc1 hc2
      simp only [Bool.not_false, Bool.and_true, decide_eq_true_eq] at hc1 hc2
      omega

theorem step_found {s : PFState} (h : s.found = true) :
    step COLS ROWS obstacle endc s = s := by
  unfold step
  rw [h]
  simp

theorem runSteps_found_mono (n : Nat)
    (h : (runSteps COLS ROWS obstacle startc endc n).found = true) :
    (runSteps COLS ROWS obstacle startc endc (n + 1)).found = true := by
  show (step COLS ROWS obstacle endc
    (runSteps COLS ROWS obstacle startc endc n)).found = true
  rw [step_found h]
  exact h

theorem initMeasure_le (hstart : inBounds COLS ROWS startc) :
    searchMeasure COLS ROWS (initState startc) ≤ COLS * ROWS := by
  unfold searchMeasure
  have hsub : ((boundsGrid COLS ROWS).filter
      fun c => c ∉ openCells (initState startc) ∧
        c ∉ (initState startc).closedSet) ⊆
      (boundsGrid COLS ROWS).erase startc := by
    intro c hc
    rw [Finset.mem_filter] at hc
    rw [Finset.mem_erase]
    refine ⟨?_, hc.1⟩
    intro he
    refine hc.2.1 ?_
    rw [he]
    show startc ∈ openCells (initState startc)
    rw [show openCells (initState startc) = [startc] from rfl]
    simp
  have h2 := Finset.card_le_card hsub
  have h3 : ((boundsGrid COLS ROWS).erase startc).card = COLS * ROWS - 1 := by
    rw [Finset.card_erase_of_mem ((mem_boundsGrid COLS ROWS startc).mpr hstart)]
    simp [boundsGrid]
  have h4 : 0 < COLS * ROWS := by
    obtain ⟨h5, h6⟩ := hstart
    exact Nat.mul_pos (by omega) (by omega)
  have hlen : (initState startc).openSet.length = 1 := rfl
  omega

theorem measure_bound (hstart : inBounds COLS ROWS startc)
    (hfree : obstacle startc = false) :
    ∀ n, (runSteps COLS ROWS obstacle startc endc n).found = false →
      searchMeasure COLS ROWS (runSteps COLS ROWS obstacle startc endc n) + n ≤
        searchMeasure COLS ROWS (initState startc)
  | 0, _ => Nat.le_refl _
  | n + 1, h => by
    have hfn : (runSteps COLS ROWS obstacle startc endc n).found = false := by
      cases hx : (runSteps COLS ROWS obstacle startc endc n).found
      · rfl
      · rw [runSteps_found_mono n hx] at h
        cases h
    have IH := measure_bound hstart hfree n hfn
    rcases step_measure (runSteps_inv hstart hfree n) hfn with hf | hm
    · have hff : (step COLS ROWS obstacle endc
          (runSteps COLS ROWS obstacle startc endc n)).found = false := h
      rw [hf] at hff
      cases hff
    · have hm' : searchMeasure COLS ROWS
          (runSteps COLS ROWS obstacle startc endc (n + 1)) + 1 =
          searchMeasure COLS ROWS (runSteps COLS ROWS obstacle startc endc n) := hm
      omega

end Measure

/-- **C8** (confirmed).  For every grid and valid start/goal, repeated
`step()` calls reach a terminal state within `COLS × ROWS + 1` calls and
stay terminal afterwards, and the number of expansions (the size of the
visited set) never exceeds `COLS × ROWS`: the search never loops forever
in the `RUNNING` state. -/
theorem termination_bound (COLS ROWS : Nat) (obstacle : CellId → Bool)
    (startc endc : CellId) (hstart : inBounds COLS ROWS startc)
    (hfree : obstacle startc = false) :
    (runSteps COLS ROWS obstacle startc endc (COLS * ROWS + 1)).found = true ∧
    (∀ m, COLS * ROWS + 1 ≤ m →
      (runSteps COLS ROWS obstacle startc endc m).found = true) ∧
    ∀ n, (runSteps COLS ROWS obstacle startc endc n).closedSet.length ≤
      COLS * ROWS := by
  have hterm : (runSteps COLS ROWS obstacle startc endc
      (COLS * ROWS + 1)).found = true := by
    cases hfn : (runSteps COLS ROWS obstacle startc endc (COLS * ROWS + 1)).found
    · exfalso
      have h1 := @measure_bound COLS ROWS obstacle startc endc hstart hfree (COLS * ROWS + 1) hfn
      have h2 := @initMeasure_le COLS ROWS startc hstart
      omega
    · rfl
  refine ⟨hterm, ?_, ?_⟩
  · intro m hm
    induction m with
    | zero => omega
    | succ k ih =>
      rcases Nat.lt_or_ge (COLS * ROWS + 1) (k + 1) with h | h
      · exact runSteps_found_mono k (ih (by omega))
      · have : k + 1 = COLS * ROWS + 1 := by omega
        rw [this]
        exact hterm
  · intro n
    have I := @runSteps_inv COLS ROWS obstacle startc endc hstart hfree n
    exact nodup_bounded_length I.closedNodup I.closedBounds

/-- **C3** (amended).  In the neighbor scan of an expanding `step()`, a
new frontier entry is pushed for a neighbor only when the `in_open`
containment scan finds no pending entry for it: a neighbor that already
has a frontier entry leaves the frontier entirely unchanged (its cost
record may still be updated in place), while an unvisited, non-obstacle
neighbor with no pending entry is relaxed and exactly one new entry is
pushed. -/
theorem push_only_when_not_in_open (obstacle : CellId → Bool) (endc : CellId)
    (s : PFState) (cur nb : CellId) :
    (nb ∈ openCells s →
      (relaxNeighbor obstacle endc s cur nb).openSet = s.openSet) ∧
    (nb ∉ openCells s → nb ∉ s.closedSet → obstacle nb = false →
      (relaxNeighbor obstacle endc s cur nb).openSet =
        heappush
          (entryLt (upd s.f nb (s.g cur + cost cur nb + heuristic nb endc)))
          (0, (0, 0)) s.openSet
          (upd s.f nb (s.g cur + cost cur nb + heuristic nb endc) nb, nb)) := by
  constructor
  · intro hin
    have hany : (s.openSet.any fun e => decide (e.2 = nb)) = true :=
      (in_open_iff s nb).mpr hin
    unfold relaxNeighbor
    dsimp only
    split
    case isFalse => rfl
    case isTrue =>
      split
      case isFalse => rfl
      case isTrue =>
        split
        case isTrue hpush => rw [hany] at hpush; cases hpush
        case isFalse => rfl
  · intro hnin hnc hobs
    have hany : (s.openSet.any fun e => decide (e.2 = nb)) = false := by
      cases hx : (s.openSet.any fun e => decide (e.2 = nb))
      · rfl
      · exact absurd ((in_open_iff s nb).mp hx) hnin
    unfold relaxNeighbor
    dsimp only
    split
    case isFalse hcond =>
      exfalso
      exact hcond (by simp [hnc, hobs])
    case isTrue =>
      split
      case isFalse hrelax =>
        exfalso
        exact hrelax (by rw [hany]; rfl)
      case isTrue =>
        split
        case isTrue => rfl
        case isFalse hpush =>
          exfalso
          exact hpush (by rw [hany]; rfl)

end AStarPF

namespace AStarPF

set_option maxRecDepth 1000000

/-! ### The binary-heap invariant on the estimate component -/

theorem getD_set_self {α : Type} (l : List α) (i : Nat) (hi : i < l.length)
    (a d : α) : (l.set i a).getD i d = a := by
  rw [List.getD_eq_getElem _ _ (by simpa using hi), List.getElem_set]
  simp

theorem getD_append_left {α : Type} (l l' : List α) (i : Nat)
    (hi : i < l.length) (d : α) : (l ++ l').getD i d = l.getD i d := by
  rw [List.getD_eq_getElem _ _ (by simp; omega), List.getD_eq_getElem _ _ hi]
  exact List.getElem_append_left _

theorem getD_dropLast {α : Type} (l : List α) (i : Nat)
    (hi : i < l.length - 1) (d : α) : l.dropLast.getD i d = l.getD i d := by
  rw [List.getD_eq_getElem _ _ (by simpa using hi),
    List.getD_eq_getElem _ _ (by omega)]
  exact List.getElem_dropLast l i _

theorem entryLt_le {fcur : CellId → Nat} {a b : Entry}
    (h : entryLt fcur a b = true) : a.1 ≤ b.1 := by
  unfold entryLt at h
  simp only [Bool.or_eq_true, Bool.and_eq_true, decide_eq_true_eq] at h
  rcases h with h | ⟨h, _⟩ <;> omega

theorem entryLt_ge {fcur : CellId → Nat} {a b : Entry}
    (h : entryLt fcur a b = false) : b.1 ≤ a.1 := by
  unfold entryLt at h
  simp only [Bool.or_eq_false_iff, Bool.and_eq_false_iff, decide_eq_false_iff_not] at h
  omega

theorem weakHeapF_root_le {l : List Entry} (hw : WeakHeapF l) :
    ∀ i, i < l.length → (l.getD 0 (0, (0, 0))).1 ≤ (l.getD i (0, (0, 0))).1
  | i, hi => by
    by_cases h0 : i = 0
    · subst h0
      exact Nat.le_refl _
    · have hplt : (i - 1) / 2 < i :=
        Nat.lt_of_le_of_lt (Nat.div_le_self _ 2) (by omega)
      exact Nat.le_trans
        (weakHeapF_root_le hw ((i - 1) / 2) (by omega))
        (hw i (by omega) hi)

/-- Bubble-up preservation: if the array with `newitem` written at `pos`
satisfies the heap invariant except (possibly) on the edge into `pos`,
and the grandparent bound holds for the children of `pos`, then the
`_siftdown` loop restores the full invariant. -/
theorem siftdownGo_weakHeap (lt : Entry → Entry → Bool)
    (hle : ∀ a b, lt a b = true → a.1 ≤ b.1)
    (hge : ∀ a b, lt a b = false → b.1 ≤ a.1) (newitem : Entry) :
    ∀ (fuel : Nat) (heap : List Entry) (pos : Nat), pos < heap.length → pos ≤ fuel →
      (∀ i, 0 < i → i < heap.length → i ≠ pos →
        ((heap.set pos newitem).getD ((i - 1) / 2) (0, (0, 0))).1 ≤
          ((heap.set pos newitem).getD i (0, (0, 0))).1) →
      (∀ c, 0 < c → c < heap.length → (c - 1) / 2 = pos →
        ((heap.set pos newitem).getD ((pos - 1) / 2) (0, (0, 0))).1 ≤
          ((heap.set pos newitem).getD c (0, (0, 0))).1) →
      WeakHeapF (siftdownGo lt (0, (0, 0)) newitem 0 fuel heap pos)
  | 0, heap, pos, hlen, hfuel, h1, _ => by
    have hpos0 : pos = 0 := by omega
    show WeakHeapF (heap.set pos newitem)
    intro i hi0 hilen
    rw [List.length_set] at hilen
    exact h1 i hi0 hilen (by omega)
  | fuel + 1, heap, pos, hlen, hfuel, h1, h2 => by
    show WeakHeapF (if 0 < pos then _ else heap.set pos newitem)
    dsimp only
    split
    case isFalse hpos =>
      have hpos0 : pos = 0 := by omega
      subst hpos0
      intro i hi0 hilen
      rw [List.length_set] at hilen
      exact h1 i hi0 hilen (by omega)
    case isTrue hpos =>
      split
      case isFalse hlt =>
        -- newitem is not below its parent: stop, full invariant holds
        intro i hi0 hilen
        rw [List.length_set] at hilen
        by_cases hip : i = pos
        · subst hip
          rw [getD_set_self _ _ hlen,
            getD_set_ne _ _ _ (by
              have := Nat.lt_of_le_of_lt (Nat.div_le_self (i - 1) 2) (by omega : i - 1 < i)
              omega)]
          exact hge _ _ (Bool.not_eq_true _ ▸ hlt)
        · exact h1 i hi0 hilen hip
      case isTrue hlt =>
        have hpplt : (pos - 1) / 2 < pos :=
          Nat.lt_of_le_of_lt (Nat.div_le_self _ 2) (by omega)
        have hpplen : (pos - 1) / 2 < heap.length := by omega
        have hAea : ∀ j, j ≠ pos →
            ((heap.set pos newitem).getD j (0, (0, 0))) = heap.getD j (0, (0, 0)) :=
          fun j hj => getD_set_ne _ _ _ (fun h => hj h.symm) _ _
        have hApos : ((heap.set pos newitem).getD pos (0, (0, 0))) = newitem :=
          getD_set_self _ _ hlen _ _
        refine siftdownGo_weakHeap lt hle hge newitem fuel
          (heap.set pos (heap.getD ((pos - 1) / 2) (0, (0, 0)))) ((pos - 1) / 2)
          (by simpa using hpplen) (by omega) ?_ ?_
        · -- h1 for the shifted array
          intro i hi0 hilen hipp
          rw [List.length_set] at hilen
          have hA'ea : ∀ j, j ≠ pos → j ≠ (pos - 1) / 2 →
              (((heap.set pos (heap.getD ((pos - 1) / 2) (0, (0, 0)))).set
                ((pos - 1) / 2) newitem).getD j (0, (0, 0))) =
                heap.getD j (0, (0, 0)) := by
            intro j hj1 hj2
            rw [getD_set_ne _ _ _ (fun h => hj2 h.symm),
              getD_set_ne _ _ _ (fun h => hj1 h.symm)]
          have hA'pp : (((heap.set pos (heap.getD ((pos - 1) / 2) (0, (0, 0)))).set
              ((pos - 1) / 2) newitem).getD ((pos - 1) / 2) (0, (0, 0))) = newitem :=
            getD_set_self _ _ (by simpa using hpplen) _ _
          have hA'pos : (((heap.set pos (heap.getD ((pos - 1) / 2) (0, (0, 0)))).set
              ((pos - 1) / 2) newitem).getD pos (0, (0, 0))) =
              heap.getD ((pos - 1) / 2) (0, (0, 0)) := by
            rw [getD_set_ne _ _ _ (fun h => (by omega : pos ≠ (pos - 1) / 2) h.symm),
              getD_set_self _ _ hlen]
          by_cases hip : i = pos
          · -- the edge from the shifted parent into pos
            subst hip
            rw [hA'pp, hA'pos]
            exact hle _ _ hlt
          · -- other edges
            by_cases hpi : (i - 1) / 2 = pos
            · -- i is a child of pos
              rw [hA'ea i hip (by omega), hpi, hA'pos]
              have := h2 i hi0 hilen hpi
              rw [hAea i hip, hAea ((pos - 1) / 2) (by omega)] at this
              exact this
            · -- edges not incident to pos or its parent
              by_cases hpi2 : (i - 1) / 2 = (pos - 1) / 2
              · -- i is a sibling of pos (or pos itself, excluded)
                rw [hA'ea i hip hipp, hpi2, hA'pp]
                have hbase := h1 i hi0 hilen hip
                rw [hAea i hip, hpi2, hAea ((pos - 1) / 2) (by omega)] at hbase
                have hstep : newitem.1 ≤ (heap.getD ((pos - 1) / 2) (0, (0, 0))).1 :=
                  hle _ _ hlt
                omega
              · rw [hA'ea i hip hipp, hA'ea ((i - 1) / 2) hpi hpi2]
                have hbase := h1 i hi0 hilen hip
                rw [hAea i hip, hAea ((i - 1) / 2) hpi] at hbase
                exact hbase
        · -- h2 for the shifted array: children of the new hole
          intro c hc0 hclen hcpp
          rw [List.length_set] at hclen
          have hcge : 2 * ((pos - 1) / 2) + 1 ≤ c := by omega
          have hcne_pp : c ≠ (pos - 1) / 2 := by omega
          have hA'pp : (((heap.set pos (heap.getD ((pos - 1) / 2) (0, (0, 0)))).set
              ((pos - 1) / 2) newitem).getD ((pos - 1) / 2) (0, (0, 0))) = newitem :=
            getD_set_self _ _ (by simpa using hpplen) _ _
          have hA'pos : (((heap.set pos (heap.getD ((pos - 1) / 2) (0, (0, 0)))).set
              ((pos - 1) / 2) newitem).getD pos (0, (0, 0))) =
              heap.getD ((pos - 1) / 2) (0, (0, 0)) := by
            rw [getD_set_ne _ _ _ (fun h => (by omega : pos ≠ (pos - 1) / 2) h.symm),
              getD_set_self _ _ hlen]
          by_cases hgp0 : (pos - 1) / 2 = 0
          · -- the hole is the root: bound its children by newitem directly
            rw [hgp0] at hA'pp hA'pos hlt hcne_pp ⊢
            rw [show (0 - 1) / 2 = 0 from rfl, hA'pp]
            by_cases hcp : c = pos
            · subst hcp
              rw [hA'pos]
              exact hle _ _ hlt
            · rw [getD_set_ne _ _ _ (by omega), getD_set_ne _ _ _ (fun h => hcp h.symm)]
              have hbase := h1 c hc0 hclen hcp
              rw [hAea c hcp, hcpp, hgp0, hAea 0 (by omega)] at hbase
              have hstep : newitem.1 ≤ (heap.getD 0 (0, (0, 0))).1 := hle _ _ hlt
              omega
          · -- the hole has a parent: use the untouched edge above it
            have hgpne_pos : (pos - 1) / 2 - 1 < pos := by omega
            have hA'gp : (((heap.set pos (heap.getD ((pos - 1) / 2) (0, (0, 0)))).set
                ((pos - 1) / 2) newitem).getD (((pos - 1) / 2 - 1) / 2) (0, (0, 0))) =
                heap.getD (((pos - 1) / 2 - 1) / 2) (0, (0, 0)) := by
              have hlt1 : ((pos - 1) / 2 - 1) / 2 < (pos - 1) / 2 :=
                Nat.lt_of_le_of_lt (Nat.div_le_self _ 2) (by omega)
              rw [getD_set_ne _ _ _ (by omega), getD_set_ne _ _ _ (by omega)]
            rw [hA'gp]
            have hedge := h1 ((pos - 1) / 2) (by omega) (by omega) (by omega)
            rw [hAea ((pos - 1) / 2) (by omega),
              hAea (((pos - 1) / 2 - 1) / 2) (by
                have hlt1 : ((pos - 1) / 2 - 1) / 2 < (pos - 1) / 2 :=
                  Nat.lt_of_le_of_lt (Nat.div_le_self _ 2) (by omega)
                omega)] at hedge
            by_cases hcp : c = pos
            · subst hcp
              rw [hA'pos]
              exact hedge
            · rw [getD_set_ne _ _ _ (fun h => hcne_pp h.symm),
                getD_set_ne _ _ _ (fun h => hcp h.symm)]
              have hbase := h1 c hc0 hclen hcp
              rw [hAea c hcp, hcpp, hAea ((pos - 1) / 2) (by omega)] at hbase
              omega

end AStarPF

namespace AStarPF

set_option maxRecDepth 1000000

/-- Descent-phase preservation: the `_siftup` walk keeps the estimate
invariant on all edges not incident to the hole, and hands a valid
configuration to the final `_siftdown` bubble-up. -/
theorem siftupGo_weakHeap (lt : Entry → Entry → Bool)
    (hle : ∀ a b, lt a b = true → a.1 ≤ b.1)
    (hge : ∀ a b, lt a b = false → b.1 ≤ a.1) (newitem : Entry) :
    ∀ (fuel : Nat) (heap : List Entry) (pos : Nat), pos < heap.length →
      heap.length ≤ fuel + pos + 1 →
      (∀ i, 0 < i → i < heap.length → i ≠ pos → (i - 1) / 2 ≠ pos →
        ((heap.set pos newitem).getD ((i - 1) / 2) (0, (0, 0))).1 ≤
          ((heap.set pos newitem).getD i (0, (0, 0))).1) →
      (0 < pos → ∀ c, 0 < c → c < heap.length → (c - 1) / 2 = pos →
        ((heap.set pos newitem).getD ((pos - 1) / 2) (0, (0, 0))).1 ≤
          ((heap.set pos newitem).getD c (0, (0, 0))).1) →
      WeakHeapF (siftupGo lt (0, (0, 0)) newitem 0 fuel heap pos)
  | 0, heap, pos, hlen, hfuel, hJ1, _ => by
    show WeakHeapF (siftdownLoop lt (0, (0, 0)) (heap.set pos newitem) 0 newitem pos)
    rw [siftdownLoop]
    have hleaf : ¬(2 * pos + 1 < heap.length) := by omega
    refine siftdownGo_weakHeap lt hle hge newitem pos (heap.set pos newitem) pos
      (by simpa using hlen) (Nat.le_refl _) ?_ ?_
    · intro i hi0 hilen hip
      rw [List.length_set] at hilen
      rw [List.set_set]
      by_cases hpi : (i - 1) / 2 = pos
      · exfalso
        omega
      · exact hJ1 i hi0 hilen hip hpi
    · intro c hc0 hclen hcp
      rw [List.length_set] at hclen
      exfalso
      omega
  | fuel + 1, heap, pos, hlen, hfuel, hJ1, hJ2 => by
    show WeakHeapF (if 2 * pos + 1 < heap.length then _ else
      siftdownLoop lt (0, (0, 0)) (heap.set pos newitem) 0 newitem pos)
    dsimp only
    split
    case isFalse hleaf =>
      rw [siftdownLoop]
      refine siftdownGo_weakHeap lt hle hge newitem pos (heap.set pos newitem) pos
        (by simpa using hlen) (Nat.le_refl _) ?_ ?_
      · intro i hi0 hilen hip
        rw [List.length_set] at hilen
        rw [List.set_set]
        by_cases hpi : (i - 1) / 2 = pos
        · exfalso
          omega
        · exact hJ1 i hi0 hilen hip hpi
      · intro c hc0 hclen hcp
        rw [List.length_set] at hclen
        exfalso
        omega
    case isTrue hchild =>
      have key : ∀ childpos : Nat, pos < childpos → childpos < heap.length →
          (childpos - 1) / 2 = pos →
          (∀ o, 0 < o → o < heap.length → (o - 1) / 2 = pos →
            (heap.getD childpos (0, (0, 0))).1 ≤ (heap.getD o (0, (0, 0))).1) →
          WeakHeapF (siftupGo lt (0, (0, 0)) newitem 0 fuel
            (heap.set pos (heap.getD childpos (0, (0, 0)))) childpos) := by
        intro childpos hpc hclen hcp hsc
        have hAea : ∀ j, j ≠ pos →
            ((heap.set pos newitem).getD j (0, (0, 0))) = heap.getD j (0, (0, 0)) :=
          fun j hj => getD_set_ne _ _ _ (fun h => hj h.symm) _ _
        have hA'c : ∀ j, j ≠ pos → j ≠ childpos →
            (((heap.set pos (heap.getD childpos (0, (0, 0)))).set childpos
              newitem).getD j (0, (0, 0))) = heap.getD j (0, (0, 0)) := by
          intro j hj1 hj2
          rw [getD_set_ne _ _ _ (fun h => hj2 h.symm) _ _,
            getD_set_ne _ _ _ (fun h => hj1 h.symm) _ _]
        have hA'pos : (((heap.set pos (heap.getD childpos (0, (0, 0)))).set childpos
            newitem).getD pos (0, (0, 0))) = heap.getD childpos (0, (0, 0)) := by
          rw [getD_set_ne _ _ _ (fun h => (by omega : pos ≠ childpos) h.symm) _ _,
            getD_set_self _ _ hlen]
        refine siftupGo_weakHeap lt hle hge newitem fuel
          (heap.set pos (heap.getD childpos (0, (0, 0)))) childpos
          (by simpa using hclen) (by simp only [List.length_set]; omega) ?_ ?_
        · intro i hi0 hilen hic hicp
          rw [List.length_set] at hilen
          by_cases hip : i = pos
          · subst hip
            have hpp : (i - 1) / 2 ≠ childpos := by
              have : (i - 1) / 2 < i := Nat.lt_of_le_of_lt (Nat.div_le_self _ 2) (by omega)
              omega
            have hppne : (i - 1) / 2 ≠ i := by
              have : (i - 1) / 2 < i := Nat.lt_of_le_of_lt (Nat.div_le_self _ 2) (by omega)
              omega
            rw [hA'c ((i - 1) / 2) hppne hpp, hA'pos]
            have hj2 := hJ2 hi0 childpos (by omega) hclen hcp
            rw [hAea ((i - 1) / 2) hppne, hAea childpos (by omega)] at hj2
            exact hj2
          · by_cases hpi : (i - 1) / 2 = pos
            · rw [hA'c i hip hic, hpi, hA'pos]
              exact hsc i hi0 hilen hpi
            · rw [hA'c i hip hic, hA'c ((i - 1) / 2) hpi hicp]
              have hbase := hJ1 i hi0 hilen hip hpi
              rw [hAea i hip, hAea ((i - 1) / 2) hpi] at hbase
              exact hbase
        · intro _ c hc0 hclen2 hcc
          rw [List.length_set] at hclen2
          have hcgt : childpos < c := by omega
          rw [hcp]
          rw [hA'pos, hA'c c (by omega) (by omega)]
          have hbase := hJ1 c hc0 hclen2 (by omega) (by omega)
          rw [hAea c (by omega), hcc, hAea childpos (by omega)] at hbase
          exact hbase
      split
      case isTrue hcond =>
        simp only [Bool.and_eq_true, decide_eq_true_eq, Bool.not_eq_true'] at hcond
        obtain ⟨h2len, hltLR⟩ := hcond
        refine key (2 * pos + 2) (by omega) h2len (by omega) ?_
        intro o ho0 holen hop
        have : o = 2 * pos + 1 ∨ o = 2 * pos + 2 := by omega
        rcases this with h | h
        · subst h
          exact hge _ _ hltLR
        · subst h
          exact Nat.le_refl _
      case isFalse hcond =>
        refine key (2 * pos + 1) (by omega) hchild (by omega) ?_
        intro o ho0 holen hop
        have : o = 2 * pos + 1 ∨ o = 2 * pos + 2 := by omega
        rcases this with h | h
        · subst h
          exact Nat.le_refl _
        · subst h
          have hltLR : lt (heap.getD (2 * pos + 1) (0, (0, 0)))
              (heap.getD (2 * pos + 2) (0, (0, 0))) = true := by
            cases hx : lt (heap.getD (2 * pos + 1) (0, (0, 0)))
                (heap.getD (2 * pos + 2) (0, (0, 0)))
            · exfalso
              apply hcond
              simp only [Bool.and_eq_true, decide_eq_true_eq, Bool.not_eq_true']
              exact ⟨by omega, hx⟩
            · rfl
          exact hle _ _ hltLR

end AStarPF

namespace AStarPF

set_option maxRecDepth 1000000

theorem heappush_weakHeap (lt : Entry → Entry → Bool)
    (hle : ∀ a b, lt a b = true → a.1 ≤ b.1)
    (hge : ∀ a b, lt a b = false → b.1 ≤ a.1)
    {l : List Entry} (hw : WeakHeapF l) (x : Entry) :
    WeakHeapF (heappush lt (0, (0, 0)) l x) := by
  rw [heappush, siftdownLoop]
  refine siftdownGo_weakHeap lt hle hge x l.length (l ++ [x]) l.length
    (by simp) (Nat.le_refl _) ?_ ?_
  · intro i hi0 hilen hip
    rw [List.length_append, List.length_singleton] at hilen
    have hida : i < l.length := by omega
    rw [set_append_len]
    have hpp : (i - 1) / 2 < l.length :=
      Nat.lt_of_le_of_lt (Nat.le_trans (Nat.div_le_self _ 2) (by omega)) hida
    rw [getD_append_left _ _ _ hida, getD_append_left _ _ _ hpp]
    exact hw i hi0 hida
  · intro c hc0 hclen hcp
    rw [List.length_append, List.length_singleton] at hclen
    exfalso
    omega

theorem heappop_weakHeap (lt : Entry → Entry → Bool)
    (hle : ∀ a b, lt a b = true → a.1 ≤ b.1)
    (hge : ∀ a b, lt a b = false → b.1 ≤ a.1)
    {heap rest : List Entry} {e : Entry} (hw : WeakHeapF heap)
    (hpop : heappop lt (0, (0, 0)) heap = some (e, rest)) :
    WeakHeapF rest ∧ ∀ y ∈ heap, e.1 ≤ y.1 := by
  have hroot : ∀ y ∈ heap, (heap.getD 0 (0, (0, 0))).1 ≤ y.1 := by
    intro y hy
    obtain ⟨i, hi, hyi⟩ := List.mem_iff_getElem.mp hy
    have : heap.getD i (0, (0, 0)) = y := by
      rw [List.getD_eq_getElem _ _ hi]
      exact hyi
    rw [← this]
    exact weakHeapF_root_le hw i hi
  cases heap with
  | nil => simp [heappop] at hpop
  | cons a t =>
    have hne : (a :: t) ≠ [] := List.cons_ne_nil a t
    rw [heappop] at hpop
    cases hdl : (a :: t).dropLast with
    | nil =>
      rw [hdl] at hpop
      simp only [Option.some.injEq, Prod.mk.injEq] at hpop
      obtain ⟨he, hrest⟩ := hpop
      have ht : t = [] := by
        have h := congrArg List.length hdl
        simp at h
        exact h
      subst ht
      constructor
      · rw [← hrest]
        intro i hi0 hilen
        simp at hilen
      · intro y hy
        rw [List.mem_singleton] at hy
        subst hy
        rw [← he]
        exact Nat.le_refl _
    | cons b u =>
      rw [hdl] at hpop
      simp only [Option.some.injEq, Prod.mk.injEq] at hpop
      obtain ⟨he, hrest⟩ := hpop
      have hlendl : (b :: u).length = (a :: t).length - 1 := by
        rw [← hdl]
        exact List.length_dropLast _
      have hlen2 : 2 ≤ (a :: t).length := by
        have hpos : 0 < (b :: u).length := by simp
        omega
      constructor
      · rw [← hrest, siftupLoop]
        refine siftupGo_weakHeap lt hle hge ((a :: t).getLast hne) _
          ((b :: u).set 0 ((a :: t).getLast hne)) 0 (by simp) (by simp) ?_ ?_
        · intro i hi0 hilen hip hipp
          rw [List.length_set] at hilen
          rw [List.set_set]
          have hpplt : (i - 1) / 2 < (b :: u).length :=
            Nat.lt_of_le_of_lt (Nat.le_trans (Nat.div_le_self _ 2) (by omega)) hilen
          rw [getD_set_ne _ _ _ (fun h => hip h.symm) _ _,
            getD_set_ne _ _ _ (fun h => hipp h.symm) _ _]
          have hdla : ∀ j, j < (b :: u).length →
              (b :: u).getD j (0, (0, 0)) = (a :: t).getD j (0, (0, 0)) := by
            intro j hj
            rw [← hdl]
            exact getD_dropLast _ _ (by omega) _
          rw [hdla i hilen, hdla ((i - 1) / 2) hpplt]
          exact hw i hi0 (by omega)
        · intro h0 _ _ _ _
          exact absurd h0 (by omega)
      · intro y hy
        have hb : (b :: u).getD 0 ((a :: t).getLast hne) = (a :: t).getD 0 (0, (0, 0)) := by
          show b = _
          have : (b :: u).getD 0 (0, (0, 0)) = (a :: t).getD 0 (0, (0, 0)) := by
            rw [← hdl]
            exact getD_dropLast _ _ (by omega) _
          exact this
        rw [← he, hb]
        exact hroot y hy

/-- **C7** (amended).  `popMin()` always extracts an entry whose
`totalEstimate` (the first, immutable component of the entry) is minimal
among all entries of the frontier: starting from the empty frontier, every
`heappush` and every `heappop` — under the source's entry comparison with
any current `f`-map, i.e. regardless of tie-field mutation — maintains
the binary-heap invariant on the estimate component, and a pop returns an
entry of minimal estimate.  Ties among equal estimates, however, are
broken by the heap's array layout, not first-in-first-extracted, as the
counterexample shows. -/
theorem heappop_min_estimate :
    WeakHeapF [] ∧
    (∀ (fcur : CellId → Nat) (l : List Entry) (x : Entry), WeakHeapF l →
      WeakHeapF (heappush (entryLt fcur) (0, (0, 0)) l x)) ∧
    (∀ (fcur : CellId → Nat) (l rest : List Entry) (e : Entry), WeakHeapF l →
      heappop (entryLt fcur) (0, (0, 0)) l = some (e, rest) →
      WeakHeapF rest ∧ ∀ y ∈ l, e.1 ≤ y.1) := by
  refine ⟨?_, ?_, ?_⟩
  · intro i hi0 hilen
    simp at hilen
  · intro fcur l x hw
    exact heappush_weakHeap (entryLt fcur) (fun a b => entryLt_le)
      (fun a b => entryLt_ge) hw x
  · intro fcur l rest e hw hpop
    exact heappop_weakHeap (entryLt fcur) (fun a b => entryLt_le)
      (fun a b => entryLt_ge) hw hpop

end AStarPF

namespace AStarPF

set_option maxRecDepth 1000000

/-! ### Witnesses: the hypothesized claim theorems applied at concrete runs -/

/-- Witness for the amended C1 theorem, on the `4 × 4` obstacle-free run
that finds its goal after 15 steps. -/
theorem found_path_valid_witness :
    IsValidPath 4 4 emptyObstacle
      (getPath 4 4 (runSteps 4 4 emptyObstacle (0, 0) (3, 3) 15)).reverse ∧
    (getPath 4 4 (runSteps 4 4 emptyObstacle (0, 0) (3, 3) 15)).reverse.head? =
      some (0, 0) ∧
    (getPath 4 4 (runSteps 4 4 emptyObstacle (0, 0) (3, 3) 15)).reverse.getLast? =
      some (3, 3) ∧
    sInf (pathLengths 4 4 emptyObstacle (0, 0) (3, 3)) ≤
      (getPath 4 4 (runSteps 4 4 emptyObstacle (0, 0) (3, 3) 15)).length - 1 :=
  found_path_valid 4 4 emptyObstacle (0, 0) (3, 3) (by decide) (by decide) 15
    (by decide) (by decide)

/-- Witness for the amended C2 theorem: after the finding step the walk
starts at the goal `(3,3)` and ends at the start `(0,0)`. -/
theorem getPath_walk_order_witness :
    (getPath 4 4 (runSteps 4 4 emptyObstacle (0, 0) (3, 3) 15)).head? =
      some (3, 3) ∧
    (getPath 4 4 (runSteps 4 4 emptyObstacle (0, 0) (3, 3) 15)).getLast? =
      some (0, 0) :=
  getPath_walk_order 4 4 emptyObstacle (0, 0) (3, 3) (by decide) (by decide) 15
    (3, 3) (by decide)

/-- Witness for the amended C3 theorem: relaxing the in-frontier neighbor
`(0,3)` at the 14th step leaves the frontier list unchanged. -/
theorem push_only_when_not_in_open_witness :
    (relaxNeighbor emptyObstacle (3, 3) (sqRun 13) (0, 2) (0, 3)).openSet =
      (sqRun 13).openSet :=
  (push_only_when_not_in_open emptyObstacle (3, 3) (sqRun 13) (0, 2) (0, 3)).1
    (by decide)

/-- Witness for the C4 theorem at step 13 of the `4 × 4` run. -/
theorem no_reexpansion_witness :
    (runSteps 4 4 emptyObstacle (0, 0) (3, 3) 13).closedSet.Nodup ∧
    ((step 4 4 emptyObstacle (3, 3)
        (runSteps 4 4 emptyObstacle (0, 0) (3, 3) 13)).closedSet =
      (runSteps 4 4 emptyObstacle (0, 0) (3, 3) 13).closedSet ∨
     ∃ c, c ∈ openCells (runSteps 4 4 emptyObstacle (0, 0) (3, 3) 13) ∧
       c ∉ (runSteps 4 4 emptyObstacle (0, 0) (3, 3) 13).closedSet ∧
       (step 4 4 emptyObstacle (3, 3)
          (runSteps 4 4 emptyObstacle (0, 0) (3, 3) 13)).closedSet =
         c :: (runSteps 4 4 emptyObstacle (0, 0) (3, 3) 13).closedSet) :=
  no_reexpansion 4 4 emptyObstacle (0, 0) (3, 3) (by decide) (by decide) 13

/-- Witness for the C6 theorem: on the walled `2 × 2` grid the engine,
stepped on an empty frontier, is observed `EXHAUSTED` and terminal. -/
theorem engine_state_distinct_witness :
    observedState (1, 1) (step 2 2 wallObstacle (1, 1) (wallRun 1)) =
      EngineState.EXHAUSTED ∧
    (step 2 2 wallObstacle (1, 1) (wallRun 1)).found = true :=
  (engine_state_distinct 2 2 wallObstacle (0, 0) (1, 1) (by decide) (by decide) 1).1
    (by decide) (by decide)

/-- Witness for the C7 amended theorem: the four-equal-entry frontier
satisfies the heap invariant, and its pop returns a minimal-estimate
entry. -/
theorem heappop_min_estimate_witness :
    WeakHeapF [(5, (2, 0)), (5, (1, 0)), (5, (3, 0))] ∧
    ∀ y ∈ tieHeap, 5 ≤ y.1 := by
  have hw : WeakHeapF tieHeap := by
    intro i h1 h2
    have hlen : tieHeap.length = 4 := by decide
    rw [hlen] at h2
    interval_cases i <;> decide
  exact heappop_min_estimate.2.2 tieF tieHeap
    [(5, (2, 0)), (5, (1, 0)), (5, (3, 0))] (5, (0, 0)) hw (by decide)

/-- Witness for the C8 theorem on the walled `2 × 2` grid. -/
theorem termination_bound_witness :
    (runSteps 2 2 wallObstacle (0, 0) (1, 1) (2 * 2 + 1)).found = true ∧
    (∀ m, 2 * 2 + 1 ≤ m →
      (runSteps 2 2 wallObstacle (0, 0) (1, 1) m).found = true) ∧
    ∀ n, (runSteps 2 2 wallObstacle (0, 0) (1, 1) n).closedSet.length ≤ 2 * 2 :=
  termination_bound 2 2 wallObstacle (0, 0) (1, 1) (by decide) (by decide)

/-- Witness for the C9 theorem after 7 steps of the `4 × 4` run. -/
theorem frontier_unique_witness :
    (openCells (runSteps 4 4 emptyObstacle (0, 0) (3, 3) 7)).Nodup ∧
    (runSteps 4 4 emptyObstacle (0, 0) (3, 3) 7).openSet.length ≤ 4 * 4 :=
  frontier_unique 4 4 emptyObstacle (0, 0) (3, 3) (by decide) (by decide) 7

end AStarPF
